import Mathlib

/-!
# Base64 codec (`base64.c`): shallow embedding and verified properties

Bytes and characters are natural numbers.  Memory that the C code walks with a
pointer is a list: the list is what lies at and after the pointer, `*s` is its
head and `++s` drops the head.  Every read goes through an `unsigned char`
lvalue and is taken `% 256`; every store into an `unsigned char`/`char` cell is
taken `% 256` as well.  Reading where the list has ended is reported as
`Ret.fault`, a value the C function cannot return.
-/

namespace Base64

/-! ## Constants and tables -/

/-- Value of `enum special_e`: a non base64 digit was found. -/
def notabase64 : Nat := 64

/-- Value of `enum special_e`: the character `=` was found. -/
def terminator : Nat := 65

/-- Look at table that converts a base64 digit to integer (256 entries). -/
def digittobin : List Nat := [
    64, 64, 64, 64, 64, 64, 64, 64, 64, 64, 64, 64, 64, 64, 64, 64,
    64, 64, 64, 64, 64, 64, 64, 64, 64, 64, 64, 64, 64, 64, 64, 64,
    64, 64, 64, 64, 64, 64, 64, 64, 64, 64, 64, 62, 64, 64, 64, 63,
    52, 53, 54, 55, 56, 57, 58, 59, 60, 61, 64, 64, 64, 65, 64, 64,
    64,  0,  1,  2,  3,  4,  5,  6,  7,  8,  9, 10, 11, 12, 13, 14,
    15, 16, 17, 18, 19, 20, 21, 22, 23, 24, 25, 64, 64, 64, 64, 64,
    64, 26, 27, 28, 29, 30, 31, 32, 33, 34, 35, 36, 37, 38, 39, 40,
    41, 42, 43, 44, 45, 46, 47, 48, 49, 50, 51, 64, 64, 64, 64, 64,
    64, 64, 64, 64, 64, 64, 64, 64, 64, 64, 64, 64, 64, 64, 64, 64,
    64, 64, 64, 64, 64, 64, 64, 64, 64, 64, 64, 64, 64, 64, 64, 64,
    64, 64, 64, 64, 64, 64, 64, 64, 64, 64, 64, 64, 64, 64, 64, 64,
    64, 64, 64, 64, 64, 64, 64, 64, 64, 64, 64, 64, 64, 64, 64, 64,
    64, 64, 64, 64, 64, 64, 64, 64, 64, 64, 64, 64, 64, 64, 64, 64,
    64, 64, 64, 64, 64, 64, 64, 64, 64, 64, 64, 64, 64, 64, 64, 64,
    64, 64, 64, 64, 64, 64, 64, 64, 64, 64, 64, 64, 64, 64, 64, 64,
    64, 64, 64, 64, 64, 64, 64, 64, 64, 64, 64, 64, 64, 64, 64, 64
]

/-- Character codes of a string literal. -/
def codes (s : String) : List Nat := s.toList.map Char.toNat

/-- Look at table that converts a integer to base64 digit: the 64 digits
followed by the null byte that closes the C string literal. -/
def bintodigit : List Nat :=
  codes ("ABCDEFGHIJKLMNOPQRSTUVWXYZ"
      ++ "abcdefghijklmnopqrstuvwxyz"
      ++ "0123456789"
      ++ "+/") ++ [0]

/-- The 64 base64 digits, in table order. -/
def alphabet : List Nat := bintodigit.take 64

/-- The padding character `=`. -/
def padChar : Nat := 61

/-! ## Decoder -/

/-- What `b64tobin` hands back. -/
inductive Ret where
  /-- A pointer into the destination, as an offset from the initial `dest`. -/
  | ptr (off : Nat)
  /-- The null pointer (`return 0`). -/
  | null
  /-- A read outside the memory that was supplied as `src`. -/
  | fault
  deriving DecidableEq, Repr

/-- Outcome of a call of `b64tobin`: the bytes stored through `p`, in address
order from the initial `dest`, and the returned value. -/
structure DecResult where
  dest : List Nat
  ret : Ret
  deriving DecidableEq, Repr

/-- The `for(;;)` loop of `b64tobin`.  First argument: memory from `s` on;
`p`: offset of the write pointer from `dest`; `out`: bytes stored so far. -/
def b64tobinLoop : List Nat → Nat → List Nat → DecResult
  | [], _, out => ⟨out, Ret.fault⟩
  | s0 :: t0, p, out =>
    let a := digittobin.getD (s0 % 256) 0
    if a = notabase64 then ⟨out, Ret.ptr p⟩
    else if a = terminator then ⟨out, Ret.ptr p⟩
    else
      match t0 with
      | [] => ⟨out, Ret.fault⟩
      | s1 :: t1 =>
        let b := digittobin.getD (s1 % 256) 0
        if b = notabase64 then ⟨out, Ret.null⟩
        else if b = terminator then ⟨out, Ret.null⟩
        else
          let out1 := out ++ [((a <<< 2) ||| (b >>> 4)) % 256]
          let p1 := p + 1
          match t1 with
          | [] => ⟨out1, Ret.fault⟩
          | s2 :: t2 =>
            let c := digittobin.getD (s2 % 256) 0
            if c = notabase64 then ⟨out1, Ret.null⟩
            else
              match t2 with
              | [] => ⟨out1, Ret.fault⟩
              | s3 :: t3 =>
                let d := digittobin.getD (s3 % 256) 0
                if d = notabase64 then ⟨out1, Ret.null⟩
                else if c = terminator then
                  if d ≠ terminator then ⟨out1, Ret.null⟩
                  else ⟨out1, Ret.ptr p1⟩
                else
                  let out2 := out1 ++ [((b <<< 4) ||| (c >>> 2)) % 256]
                  let p2 := p1 + 1
                  if d = terminator then ⟨out2, Ret.ptr p2⟩
                  else
                    let out3 := out2 ++ [((c <<< 6) ||| (d >>> 0)) % 256]
                    let p3 := p2 + 1
                    b64tobinLoop t3 p3 out3

/-- Convert a base64 null-terminated string to binary format.  `src` is the
memory at `src`: the characters of the string, its null byte, and whatever
lies behind. -/
def b64tobin (src : List Nat) : DecResult := b64tobinLoop src 0 []

/-! ## Encoder -/

/-- The local `index` of `get0`. -/
def get0Index (a : Nat) : Nat := a >>> 2

/-- Get the first base 64 digit of a block of 4. -/
def get0 (a : Nat) : Nat := bintodigit.getD (get0Index a) 0

/-- The local `index` of `get1`. -/
def get1Index (a b : Nat) : Nat :=
  let indexA := (a &&& 0b11) <<< 4
  let indexB := b >>> 4
  indexA ||| indexB

/-- Get the second base 64 digit of a block of 4. -/
def get1 (a b : Nat) : Nat := bintodigit.getD (get1Index a b) 0

/-- The local `index` of `get2`. -/
def get2Index (b c : Nat) : Nat :=
  let indexB := (b &&& 0b1111) <<< 2
  let indexC := c >>> 6
  indexB ||| indexC

/-- Get the third base 64 digit of a block of 4. -/
def get2 (b c : Nat) : Nat := bintodigit.getD (get2Index b c) 0

/-- The local `index` of `get3`. -/
def get3Index (c : Nat) : Nat := c &&& 0x3f

/-- Get the fourth base 64 digit of a block of 4. -/
def get3 (c : Nat) : Nat := bintodigit.getD (get3Index c) 0

/-- The destination of `bintob64`: the characters stored so far, in address
order from the initial `dest`, and the offset of the pointer `dest`. -/
structure EncState where
  mem : List Nat
  dest : Nat
  deriving DecidableEq, Repr

/-- The store `*dest++ = v`. -/
def EncState.put (st : EncState) (v : Nat) : EncState :=
  ⟨st.mem ++ [v % 256], st.dest + 1⟩

/-- The label `final`: `*dest = '\0'; return dest;` (the pointer stays). -/
def EncState.final (st : EncState) : EncState :=
  ⟨st.mem ++ [0], st.dest⟩

/-- Body of `bintob64`.  The list holds the `size` bytes at `block`; the
resulting state has the stored characters and the returned pointer. -/
def bintob64Loop : List Nat → EncState → EncState
  | a :: b :: c :: rest, st =>
    bintob64Loop rest
      ((((st.put (get0 (a % 256))).put (get1 (a % 256) (b % 256))).put
        (get2 (b % 256) (c % 256))).put (get3 (c % 256)))
  | [], st => st.final
  | [a], st =>
    ((((st.put (get0 (a % 256))).put (get1 (a % 256) 0)).put padChar).put padChar).final
  | [a, b], st =>
    ((((st.put (get0 (a % 256))).put (get1 (a % 256) (b % 256))).put
      (get2 (b % 256) 0)).put padChar).final

/-- Convert a binary memory block in a base64 null-terminated string.  `src`
is the block of `size = src.length` bytes. -/
def bintob64 (src : List Nat) : EncState := bintob64Loop src ⟨[], 0⟩

/-! ## Auxiliary definitions used in the statements and proofs -/

/-- The characters `bintob64` stores before the null byte, as a function of
the source block. -/
def encChars : List Nat → List Nat
  | a :: b :: c :: rest =>
    get0 (a % 256) :: get1 (a % 256) (b % 256) :: get2 (b % 256) (c % 256) ::
      get3 (c % 256) :: encChars rest
  | [] => []
  | [a] => [get0 (a % 256), get1 (a % 256) 0, padChar, padChar]
  | [a, b] => [get0 (a % 256), get1 (a % 256) (b % 256), get2 (b % 256) 0, padChar]

/-- The table value `digittobin[c]` of a character read through `s`. -/
def digit (c : Nat) : Nat := digittobin.getD (c % 256) 0

/-- The bytes stored for complete groups of four digits. -/
def decGroups : List Nat → List Nat
  | s0 :: s1 :: s2 :: s3 :: rest =>
    ((digit s0 <<< 2) ||| (digit s1 >>> 4)) % 256 ::
    ((digit s1 <<< 4) ||| (digit s2 >>> 2)) % 256 ::
    ((digit s2 <<< 6) ||| (digit s3 >>> 0)) % 256 :: decGroups rest
  | _ => []

/-! ## Reference encoding (RFC 4648, section 4), written from the specification -/

/-- The eight bits of a byte, most significant first. -/
def bitsOfByte (x : Nat) : List Nat :=
  [x / 128 % 2, x / 64 % 2, x / 32 % 2, x / 16 % 2, x / 8 % 2, x / 4 % 2, x / 2 % 2, x % 2]

/-- The big-endian bit string of a byte sequence. -/
def bitString : List Nat → List Nat
  | [] => []
  | x :: xs => bitsOfByte x ++ bitString xs

/-- Zero padding on the right to a multiple of 6 bits. -/
def padTo6 (bits : List Nat) : List Nat :=
  bits ++ List.replicate ((6 - bits.length % 6) % 6) 0

/-- The values of the consecutive 6-bit groups of a bit string. -/
def sextets : List Nat → List Nat
  | b5 :: b4 :: b3 :: b2 :: b1 :: b0 :: rest =>
    (32 * b5 + 16 * b4 + 8 * b3 + 4 * b2 + 2 * b1 + b0) :: sextets rest
  | _ => []

/-- Reference encoder over the bit string: every 6-bit group of the zero-padded
bit string becomes the alphabet character of that index, and `=` fills the
text up to a multiple of four characters. -/
def rfc4648Bits (B : List Nat) : List Nat :=
  let digits := (sextets (padTo6 (bitString B))).map (fun i => alphabet.getD i 0)
  digits ++ List.replicate ((4 - digits.length % 4) % 4) padChar

/-- The four characters of a 3-byte group `(a, b, c)`, by the bit-slice formulas. -/
def groupChars (a b c : Nat) : List Nat :=
  [alphabet.getD (a >>> 2) 0,
   alphabet.getD (((a &&& 3) <<< 4) ||| (b >>> 4)) 0,
   alphabet.getD (((b &&& 15) <<< 2) ||| (c >>> 6)) 0,
   alphabet.getD (c &&& 63) 0]

/-- Reference encoder over 3-byte groups: a missing trailing byte counts as
zero and the character positions that hold none of the data are `=`. -/
def rfc4648Groups : List Nat → List Nat
  | a :: b :: c :: rest => groupChars a b c ++ rfc4648Groups rest
  | [] => []
  | [a] => (groupChars a 0 0).take 2 ++ [padChar, padChar]
  | [a, b] => (groupChars a b 0).take 3 ++ [padChar]

/-! ## Acceptance condition of the decoder, in the words of the specification -/

/-- The remainder `r` behind the last complete group of digits is accepted:
it is empty, or starts with a character that is no digit, or starts with two
digits, a digit or `=`, and `=`. -/
def acceptedRemainder (r : List Nat) : Prop :=
  r = [] ∨ (∃ c t, r = c :: t ∧ c ∉ alphabet) ∨
    (∃ a b c t, r = a :: b :: c :: padChar :: t ∧ a ∈ alphabet ∧ b ∈ alphabet ∧
      (c ∈ alphabet ∨ c = padChar))

/-! ## Tables -/

theorem bintodigit_eq : bintodigit =
    [65, 66, 67, 68, 69, 70, 71, 72, 73, 74, 75, 76, 77, 78, 79, 80, 81, 82, 83, 84, 85, 86,
     87, 88, 89, 90, 97, 98, 99, 100, 101, 102, 103, 104, 105, 106, 107, 108, 109, 110, 111,
     112, 113, 114, 115, 116, 117, 118, 119, 120, 121, 122, 48, 49, 50, 51, 52, 53, 54, 55,
     56, 57, 43, 47, 0] := by decide

set_option maxRecDepth 100000 in
theorem digittobin_length : digittobin.length = 256 := by decide

theorem bintodigit_length : bintodigit.length = 65 := by decide

theorem alphabet_length : alphabet.length = 64 := by decide

theorem digittobin_bintodigit :
    ∀ i, i < 64 → digittobin.getD (bintodigit.getD i 0) 0 = i := by decide

set_option maxRecDepth 100000 in
theorem bintodigit_mem_alphabet : ∀ i, i < 64 → bintodigit.getD i 0 ∈ alphabet := by decide

set_option maxRecDepth 100000 in
theorem alphabet_spec : ∀ c ∈ alphabet,
    c < 256 ∧ c ≠ 0 ∧ c ≠ padChar ∧ digittobin.getD c 0 < 64 ∧
      bintodigit.getD (digittobin.getD c 0) 0 = c := by decide

set_option maxRecDepth 100000 in
theorem digittobin_not_alphabet :
    ∀ c, c < 256 → c ∉ alphabet → c ≠ padChar → digittobin.getD c 0 = 64 := by decide

theorem digittobin_padChar : digittobin.getD padChar 0 = 65 := by decide

/-! ## Bit arithmetic -/

theorem shl_or (x y i : Nat) (h : y < 2 ^ i) : (x <<< i) ||| y = x * 2 ^ i + y := by
  rw [Nat.shiftLeft_eq, Nat.mul_comm, ← Nat.mul_add_lt_is_or h]

theorem and3 (a : Nat) : a &&& 3 = a % 4 := Nat.and_pow_two_sub_one_eq_mod a 2
theorem and15 (a : Nat) : a &&& 15 = a % 16 := Nat.and_pow_two_sub_one_eq_mod a 4
theorem and63 (a : Nat) : a &&& 63 = a % 64 := Nat.and_pow_two_sub_one_eq_mod a 6

theorem get0Index_eq (a : Nat) : get0Index a = a / 4 := by
  simp [get0Index, Nat.shiftRight_eq_div_pow]

theorem get1Index_eq (a b : Nat) (hb : b < 256) : get1Index a b = (a % 4) * 16 + b / 16 := by
  have h : b >>> 4 < 2 ^ 4 := by rw [Nat.shiftRight_eq_div_pow]; omega
  simp only [get1Index]
  rw [shl_or _ _ _ h, and3, Nat.shiftRight_eq_div_pow]
  norm_num

theorem get2Index_eq (b c : Nat) (hc : c < 256) : get2Index b c = (b % 16) * 4 + c / 64 := by
  have h : c >>> 6 < 2 ^ 2 := by rw [Nat.shiftRight_eq_div_pow]; omega
  simp only [get2Index]
  rw [shl_or _ _ _ h, and15, Nat.shiftRight_eq_div_pow]
  norm_num

theorem get3Index_eq (c : Nat) : get3Index c = c % 64 := by
  simp only [get3Index]; exact and63 c

/-! ## Classification of characters -/

set_option maxRecDepth 100000 in
theorem digittobin_le : ∀ i, i < 256 → digittobin.getD i 0 ≤ 65 := by decide

theorem digit_le (c : Nat) : digit c ≤ 65 :=
  digittobin_le (c % 256) (Nat.mod_lt _ (by norm_num))

theorem digit_of_mem {c : Nat} (h : c ∈ alphabet) : digit c < 64 := by
  have h1 := alphabet_spec c h
  simp only [digit, Nat.mod_eq_of_lt h1.1]
  exact h1.2.2.2.1

theorem digit_padChar : digit padChar = 65 := by decide

theorem digit_zero : digit 0 = 64 := by decide

theorem digit_invalid {c : Nat} (h : c < 256) (h1 : c ∉ alphabet) (h2 : c ≠ padChar) :
    digit c = 64 := by
  simp only [digit, Nat.mod_eq_of_lt h]
  exact digittobin_not_alphabet c h h1 h2

/-- First stored byte of a group. -/
theorem byte1_eq (a b : Nat) (hb : b < 64) :
    ((a <<< 2) ||| (b >>> 4)) % 256 = (a * 4 + b / 16) % 256 := by
  have h : b >>> 4 < 2 ^ 2 := by rw [Nat.shiftRight_eq_div_pow]; omega
  rw [shl_or _ _ _ h, Nat.shiftRight_eq_div_pow]
  norm_num

/-! ## One pass of the decoder loop -/

theorem loop_nil (p : Nat) (out : List Nat) : b64tobinLoop [] p out = ⟨out, Ret.fault⟩ := rfl

theorem loop_cons (s0 : Nat) (t : List Nat) (p : Nat) (out : List Nat) :
    b64tobinLoop (s0 :: t) p out =
      if digit s0 = 64 then ⟨out, Ret.ptr p⟩
      else if digit s0 = 65 then ⟨out, Ret.ptr p⟩
      else match t with
        | [] => ⟨out, Ret.fault⟩
        | s1 :: t1 =>
          if digit s1 = 64 then ⟨out, Ret.null⟩
          else if digit s1 = 65 then ⟨out, Ret.null⟩
          else match t1 with
            | [] => ⟨out ++ [((digit s0 <<< 2) ||| (digit s1 >>> 4)) % 256], Ret.fault⟩
            | s2 :: t2 =>
              if digit s2 = 64 then
                ⟨out ++ [((digit s0 <<< 2) ||| (digit s1 >>> 4)) % 256], Ret.null⟩
              else match t2 with
                | [] => ⟨out ++ [((digit s0 <<< 2) ||| (digit s1 >>> 4)) % 256], Ret.fault⟩
                | s3 :: t3 =>
                  if digit s3 = 64 then
                    ⟨out ++ [((digit s0 <<< 2) ||| (digit s1 >>> 4)) % 256], Ret.null⟩
                  else if digit s2 = 65 then
                    if digit s3 ≠ 65 then
                      ⟨out ++ [((digit s0 <<< 2) ||| (digit s1 >>> 4)) % 256], Ret.null⟩
                    else ⟨out ++ [((digit s0 <<< 2) ||| (digit s1 >>> 4)) % 256], Ret.ptr (p + 1)⟩
                  else if digit s3 = 65 then
                    ⟨out ++ [((digit s0 <<< 2) ||| (digit s1 >>> 4)) % 256] ++
                      [((digit s1 <<< 4) ||| (digit s2 >>> 2)) % 256], Ret.ptr (p + 1 + 1)⟩
                  else
                    b64tobinLoop t3 (p + 1 + 1 + 1)
                      (out ++ [((digit s0 <<< 2) ||| (digit s1 >>> 4)) % 256] ++
                        [((digit s1 <<< 4) ||| (digit s2 >>> 2)) % 256] ++
                        [((digit s2 <<< 6) ||| (digit s3 >>> 0)) % 256]) := by
  cases t with
  | nil => rfl
  | cons s1 t1 =>
    cases t1 with
    | nil => rfl
    | cons s2 t2 =>
      cases t2 with
      | nil => rfl
      | cons s3 t3 => rfl

/-- A character that is no digit at the head of a group ends the decoding. -/
theorem loop_stop (s0 : Nat) (t : List Nat) (p : Nat) (out : List Nat)
    (h : 64 ≤ digit s0) : b64tobinLoop (s0 :: t) p out = ⟨out, Ret.ptr p⟩ := by
  have h1 := digit_le s0
  rw [loop_cons]
  split
  · rfl
  · rw [if_pos (by omega)]

/-- A character that is no digit in the second place of a group. -/
theorem loop_fail2 (s0 s1 : Nat) (t : List Nat) (p : Nat) (out : List Nat)
    (h0 : digit s0 < 64) (h : 64 ≤ digit s1) :
    b64tobinLoop (s0 :: s1 :: t) p out = ⟨out, Ret.null⟩ := by
  have h1 := digit_le s1
  rw [loop_cons, if_neg (by omega), if_neg (by omega)]
  simp only
  split
  · rfl
  · rw [if_pos (by omega)]

/-- Neither a digit nor `=` in the third place of a group. -/
theorem loop_fail3 (s0 s1 s2 : Nat) (t : List Nat) (p : Nat) (out : List Nat)
    (h0 : digit s0 < 64) (h1 : digit s1 < 64) (h : digit s2 = 64) :
    b64tobinLoop (s0 :: s1 :: s2 :: t) p out =
      ⟨out ++ [((digit s0 <<< 2) ||| (digit s1 >>> 4)) % 256], Ret.null⟩ := by
  rw [loop_cons, if_neg (by omega), if_neg (by omega)]
  simp only
  rw [if_neg (by omega), if_neg (by omega)]
  rw [if_pos h]

/-- Neither a digit nor `=` in the fourth place of a group. -/
theorem loop_fail4 (s0 s1 s2 s3 : Nat) (t : List Nat) (p : Nat) (out : List Nat)
    (h0 : digit s0 < 64) (h1 : digit s1 < 64) (h2 : digit s2 ≠ 64) (h : digit s3 = 64) :
    b64tobinLoop (s0 :: s1 :: s2 :: s3 :: t) p out =
      ⟨out ++ [((digit s0 <<< 2) ||| (digit s1 >>> 4)) % 256], Ret.null⟩ := by
  rw [loop_cons, if_neg (by omega), if_neg (by omega)]
  simp only
  rw [if_neg (by omega), if_neg (by omega)]
  rw [if_neg h2]
  rw [if_pos h]

/-- The group `xy=z` with `z` a digit. -/
theorem loop_pad_data (s0 s1 s2 s3 : Nat) (t : List Nat) (p : Nat) (out : List Nat)
    (h0 : digit s0 < 64) (h1 : digit s1 < 64) (h2 : digit s2 = 65) (h : digit s3 < 64) :
    b64tobinLoop (s0 :: s1 :: s2 :: s3 :: t) p out =
      ⟨out ++ [((digit s0 <<< 2) ||| (digit s1 >>> 4)) % 256], Ret.null⟩ := by
  rw [loop_cons, if_neg (by omega), if_neg (by omega)]
  simp only
  rw [if_neg (by omega), if_neg (by omega)]
  rw [if_neg (by omega)]
  rw [if_neg (by omega), if_pos h2, if_pos (by omega)]

/-- The group `xy==`. -/
theorem loop_pad2 (s0 s1 s2 s3 : Nat) (t : List Nat) (p : Nat) (out : List Nat)
    (h0 : digit s0 < 64) (h1 : digit s1 < 64) (h2 : digit s2 = 65) (h : digit s3 = 65) :
    b64tobinLoop (s0 :: s1 :: s2 :: s3 :: t) p out =
      ⟨out ++ [((digit s0 <<< 2) ||| (digit s1 >>> 4)) % 256], Ret.ptr (p + 1)⟩ := by
  rw [loop_cons, if_neg (by omega), if_neg (by omega)]
  simp only
  rw [if_neg (by omega), if_neg (by omega)]
  rw [if_neg (by omega)]
  rw [if_neg (by omega), if_pos h2, if_neg (by simp [h])]

/-- The group `xyz=`. -/
theorem loop_pad1 (s0 s1 s2 s3 : Nat) (t : List Nat) (p : Nat) (out : List Nat)
    (h0 : digit s0 < 64) (h1 : digit s1 < 64) (h2 : digit s2 < 64) (h : digit s3 = 65) :
    b64tobinLoop (s0 :: s1 :: s2 :: s3 :: t) p out =
      ⟨out ++ [((digit s0 <<< 2) ||| (digit s1 >>> 4)) % 256,
        ((digit s1 <<< 4) ||| (digit s2 >>> 2)) % 256], Ret.ptr (p + 2)⟩ := by
  rw [loop_cons, if_neg (by omega), if_neg (by omega)]
  simp only
  rw [if_neg (by omega), if_neg (by omega)]
  rw [if_neg (by omega)]
  rw [if_neg (by omega), if_neg (by omega), if_pos h]
  simp

/-- A complete group of four digits. -/
theorem loop_group (s0 s1 s2 s3 : Nat) (t : List Nat) (p : Nat) (out : List Nat)
    (h0 : digit s0 < 64) (h1 : digit s1 < 64) (h2 : digit s2 < 64) (h : digit s3 < 64) :
    b64tobinLoop (s0 :: s1 :: s2 :: s3 :: t) p out =
      b64tobinLoop t (p + 3) (out ++ decGroups [s0, s1, s2, s3]) := by
  rw [loop_cons, if_neg (by omega), if_neg (by omega)]
  simp only
  rw [if_neg (by omega), if_neg (by omega)]
  rw [if_neg (by omega)]
  rw [if_neg (by omega), if_neg (by omega), if_neg (by omega)]
  simp [decGroups]

/-! ## Induction in steps of three and four -/

theorem list_ind3 {P : List Nat → Prop} (h0 : P []) (h1 : ∀ a, P [a]) (h2 : ∀ a b, P [a, b])
    (h3 : ∀ a b c rest, P rest → P (a :: b :: c :: rest)) : ∀ l, P l
  | [] => h0
  | [a] => h1 a
  | [a, b] => h2 a b
  | a :: b :: c :: rest => h3 a b c rest (list_ind3 h0 h1 h2 h3 rest)

theorem list_ind4 {P : List Nat → Prop} (h0 : P []) (h1 : ∀ a, P [a]) (h2 : ∀ a b, P [a, b])
    (h3 : ∀ a b c, P [a, b, c])
    (h4 : ∀ a b c d rest, P rest → P (a :: b :: c :: d :: rest)) : ∀ l, P l
  | [] => h0
  | [a] => h1 a
  | [a, b] => h2 a b
  | [a, b, c] => h3 a b c
  | a :: b :: c :: d :: rest => h4 a b c d rest (list_ind4 h0 h1 h2 h3 h4 rest)

/-! ## The decoder on complete groups -/

theorem decGroups_cons4 (a b c d : Nat) (rest : List Nat) :
    decGroups (a :: b :: c :: d :: rest) = decGroups [a, b, c, d] ++ decGroups rest := by
  simp [decGroups]

theorem decGroups_length (l : List Nat) : (decGroups l).length = 3 * (l.length / 4) := by
  induction l using list_ind4 with
  | h0 => simp [decGroups]
  | h1 a => simp [decGroups]
  | h2 a b => simp [decGroups]
  | h3 a b c => simp [decGroups]
  | h4 a b c d rest ih =>
    simp only [decGroups, List.length_cons, ih]
    omega

/-- Complete groups of digits are consumed, three bytes stored for each. -/
theorem loop_groups (body : List Nat) :
    (∀ c ∈ body, digit c < 64) → body.length % 4 = 0 →
    ∀ (t : List Nat) (p : Nat) (out : List Nat),
      b64tobinLoop (body ++ t) p out =
        b64tobinLoop t (p + 3 * (body.length / 4)) (out ++ decGroups body) := by
  induction body using list_ind4 with
  | h0 => intro _ _ t p out; simp [decGroups]
  | h1 a => intro _ h; simp at h
  | h2 a b => intro _ h; simp at h
  | h3 a b c => intro _ h; simp at h
  | h4 a b c d rest ih =>
    intro hd hl t p out
    have hl' : rest.length % 4 = 0 := by simp only [List.length_cons] at hl; omega
    have hd' : ∀ x ∈ rest, digit x < 64 := fun x hx => hd x (by simp [hx])
    have e : a :: b :: c :: d :: rest ++ t = a :: b :: c :: d :: (rest ++ t) := rfl
    rw [e, loop_group a b c d _ p out (hd a (by simp)) (hd b (by simp)) (hd c (by simp))
      (hd d (by simp)), ih hd' hl', decGroups_cons4 a b c d rest, List.append_assoc]
    congr 1
    simp only [List.length_cons]
    omega

/-! ## The encoder in closed form -/

theorem bintodigit_lt_aux : ∀ i, i < 65 → bintodigit.getD i 0 < 128 := by decide

theorem bintodigit_lt (i : Nat) : bintodigit.getD i 0 < 128 := by
  by_cases h : i < 65
  · exact bintodigit_lt_aux i h
  · rw [List.getD_eq_default _ _ (by rw [bintodigit_length]; omega)]
    norm_num

theorem get0_mod (a : Nat) : get0 a % 256 = get0 a :=
  Nat.mod_eq_of_lt (Nat.lt_trans (bintodigit_lt _) (by norm_num))

theorem get1_mod (a b : Nat) : get1 a b % 256 = get1 a b :=
  Nat.mod_eq_of_lt (Nat.lt_trans (bintodigit_lt _) (by norm_num))

theorem get2_mod (a b : Nat) : get2 a b % 256 = get2 a b :=
  Nat.mod_eq_of_lt (Nat.lt_trans (bintodigit_lt _) (by norm_num))

theorem get3_mod (a : Nat) : get3 a % 256 = get3 a :=
  Nat.mod_eq_of_lt (Nat.lt_trans (bintodigit_lt _) (by norm_num))

theorem bintob64Loop_eq (src : List Nat) :
    ∀ st : EncState, bintob64Loop src st =
      ⟨st.mem ++ encChars src ++ [0], st.dest + (encChars src).length⟩ := by
  induction src using list_ind3 with
  | h0 => intro st; simp [bintob64Loop, encChars, EncState.final]
  | h1 a =>
    intro st
    simp [bintob64Loop, encChars, EncState.final, EncState.put, get0_mod, get1_mod, padChar]
  | h2 a b =>
    intro st
    simp [bintob64Loop, encChars, EncState.final, EncState.put, get0_mod, get1_mod, get2_mod,
      padChar]
  | h3 a b c rest ih =>
    intro st
    rw [bintob64Loop, ih]
    simp [encChars, EncState.put, get0_mod, get1_mod, get2_mod, get3_mod]
    omega

theorem bintob64_eq (src : List Nat) :
    bintob64 src = ⟨encChars src ++ [0], (encChars src).length⟩ := by
  simp [bintob64, bintob64Loop_eq]

theorem encChars_length (src : List Nat) :
    (encChars src).length = 4 * ((src.length + 2) / 3) := by
  induction src using list_ind3 with
  | h0 => simp [encChars]
  | h1 a => simp [encChars]
  | h2 a b => simp [encChars]
  | h3 a b c rest ih =>
    simp only [encChars, List.length_cons, ih]
    omega

/-! ## Digits of the encoder read back -/

theorem digit_bintodigit (i : Nat) (h : i < 64) : digit (bintodigit.getD i 0) = i := by
  have h1 : bintodigit.getD i 0 < 256 := Nat.lt_trans (bintodigit_lt i) (by norm_num)
  simp only [digit, Nat.mod_eq_of_lt h1]
  exact digittobin_bintodigit i h

theorem get0Index_lt (a : Nat) (ha : a < 256) : get0Index a < 64 := by
  rw [get0Index_eq]; omega

theorem get1Index_lt (a b : Nat) (hb : b < 256) : get1Index a b < 64 := by
  rw [get1Index_eq a b hb]; omega

theorem get2Index_lt (b c : Nat) (hc : c < 256) : get2Index b c < 64 := by
  rw [get2Index_eq b c hc]; omega

theorem get3Index_lt (c : Nat) : get3Index c < 64 := by
  rw [get3Index_eq]; omega

theorem digit_get0 (a : Nat) (ha : a < 256) : digit (get0 a) = a / 4 := by
  rw [get0, digit_bintodigit _ (get0Index_lt a ha), get0Index_eq]

theorem digit_get1 (a b : Nat) (hb : b < 256) : digit (get1 a b) = a % 4 * 16 + b / 16 := by
  rw [get1, digit_bintodigit _ (get1Index_lt a b hb), get1Index_eq a b hb]

theorem digit_get2 (b c : Nat) (hc : c < 256) : digit (get2 b c) = b % 16 * 4 + c / 64 := by
  rw [get2, digit_bintodigit _ (get2Index_lt b c hc), get2Index_eq b c hc]

theorem digit_get3 (c : Nat) : digit (get3 c) = c % 64 := by
  rw [get3, digit_bintodigit _ (get3Index_lt c), get3Index_eq]

theorem byte2_eq (b c : Nat) (hc : c < 64) :
    ((b <<< 4) ||| (c >>> 2)) % 256 = (b * 16 + c / 4) % 256 := by
  have h : c >>> 2 < 2 ^ 4 := by rw [Nat.shiftRight_eq_div_pow]; omega
  rw [shl_or _ _ _ h, Nat.shiftRight_eq_div_pow]
  norm_num

theorem byte3_eq (c d : Nat) (hd : d < 64) :
    ((c <<< 6) ||| (d >>> 0)) % 256 = (c * 64 + d) % 256 := by
  have h : d >>> 0 < 2 ^ 6 := by rw [Nat.shiftRight_eq_div_pow]; omega
  rw [shl_or _ _ _ h, Nat.shiftRight_eq_div_pow]
  norm_num

/-- Decoding what the encoder stored gives the source back. -/
theorem loop_encChars (B : List Nat) : (∀ x ∈ B, x < 256) → ∀ (p : Nat) (out : List Nat),
    b64tobinLoop (encChars B ++ [0]) p out = ⟨out ++ B, Ret.ptr (p + B.length)⟩ := by
  induction B using list_ind3 with
  | h0 =>
    intro _ p out
    simp only [encChars, List.nil_append, List.append_nil, List.length_nil, Nat.add_zero]
    exact loop_stop 0 [] p out (by rw [digit_zero])
  | h1 a =>
    intro hB p out
    have ha : a < 256 := hB a (by simp)
    have e0 := digit_get0 a ha
    have e1 := digit_get1 a 0 (by norm_num)
    simp only [encChars, Nat.mod_eq_of_lt ha, List.cons_append, List.nil_append]
    rw [loop_pad2 _ _ _ _ _ p out (by omega) (by omega) digit_padChar digit_padChar,
      byte1_eq _ _ (by omega), e0, e1]
    simp only [List.length_singleton]
    congr 2
    simp only [List.cons.injEq, and_true]
    omega
  | h2 a b =>
    intro hB p out
    have ha : a < 256 := hB a (by simp)
    have hb : b < 256 := hB b (by simp)
    have e0 := digit_get0 a ha
    have e1 := digit_get1 a b hb
    have e2 := digit_get2 b 0 (by norm_num)
    simp only [encChars, Nat.mod_eq_of_lt ha, Nat.mod_eq_of_lt hb, List.cons_append,
      List.nil_append]
    rw [loop_pad1 _ _ _ _ _ p out (by omega) (by omega) (by omega) digit_padChar,
      byte1_eq _ _ (by omega), byte2_eq _ _ (by omega), e0, e1, e2]
    simp only [List.length_cons, List.length_nil]
    congr 2
    simp only [List.cons.injEq, and_true]
    omega
  | h3 a b c rest ih =>
    intro hB p out
    have ha : a < 256 := hB a (by simp)
    have hb : b < 256 := hB b (by simp)
    have hc : c < 256 := hB c (by simp)
    have hr : ∀ x ∈ rest, x < 256 := fun x hx => hB x (by simp [hx])
    have e0 := digit_get0 a ha
    have e1 := digit_get1 a b hb
    have e2 := digit_get2 b c hc
    have e3 := digit_get3 c
    simp only [encChars, Nat.mod_eq_of_lt ha, Nat.mod_eq_of_lt hb, Nat.mod_eq_of_lt hc,
      List.cons_append]
    rw [loop_group _ _ _ _ _ p out (by omega) (by omega) (by omega) (by omega), ih hr]
    simp only [decGroups, List.length_cons]
    rw [byte1_eq _ _ (show digit (get1 a b) < 64 by omega),
      byte2_eq _ _ (show digit (get2 b c) < 64 by omega),
      byte3_eq _ _ (show digit (get3 c) < 64 by omega), e0, e1, e2, e3]
    congr 1
    · simp only [List.append_assoc, List.cons_append, List.nil_append, List.append_cancel_left_eq,
        List.cons.injEq, and_true]
      omega
    · congr 1; omega

/-- Claim C1.  Round trip: for every byte sequence `B`, `b64tobin` run on the
null-terminated string that `bintob64` stored does not fail, stores exactly the
bytes of `B`, and returns the position `B.length` behind the start of `dest`. -/
theorem roundtrip_b64tobin_bintob64 (B : List Nat) (hB : ∀ x ∈ B, x < 256) :
    b64tobin (bintob64 B).mem = ⟨B, Ret.ptr B.length⟩ := by
  rw [bintob64_eq, b64tobin]
  have h := loop_encChars B hB 0 []
  simpa using h

theorem roundtrip_b64tobin_bintob64_witness :
    (∀ x ∈ [0x4D, 0x61, 0x6E, 0x00, 0xFF], x < 256) ∧
      b64tobin (bintob64 [0x4D, 0x61, 0x6E, 0x00, 0xFF]).mem =
        ⟨[0x4D, 0x61, 0x6E, 0x00, 0xFF], Ret.ptr 5⟩ :=
  ⟨by decide, roundtrip_b64tobin_bintob64 [0x4D, 0x61, 0x6E, 0x00, 0xFF] (by decide)⟩

/-! ## Shape of the encoder output -/

theorem get0_mem (a : Nat) : get0 (a % 256) ∈ alphabet :=
  bintodigit_mem_alphabet _ (get0Index_lt _ (Nat.mod_lt _ (by norm_num)))

theorem get1_mem (a b : Nat) : get1 a (b % 256) ∈ alphabet :=
  bintodigit_mem_alphabet _ (get1Index_lt _ _ (Nat.mod_lt _ (by norm_num)))

theorem get2_mem (b c : Nat) : get2 b (c % 256) ∈ alphabet :=
  bintodigit_mem_alphabet _ (get2Index_lt _ _ (Nat.mod_lt _ (by norm_num)))

theorem get3_mem (c : Nat) : get3 c ∈ alphabet :=
  bintodigit_mem_alphabet _ (get3Index_lt _)

/-- The stored characters are digits followed by the padding the length asks for. -/
theorem encChars_split (B : List Nat) :
    ∃ body : List Nat, (∀ c ∈ body, c ∈ alphabet) ∧
      encChars B = body ++ List.replicate ((3 - B.length % 3) % 3) padChar := by
  induction B using list_ind3 with
  | h0 => exact ⟨[], by simp, by simp [encChars]⟩
  | h1 a =>
    refine ⟨[get0 (a % 256), get1 (a % 256) 0], ?_, by simp [encChars, List.replicate]⟩
    intro c hc
    simp only [List.mem_cons, List.mem_singleton, List.not_mem_nil, or_false] at hc
    rcases hc with rfl | rfl
    · exact get0_mem a
    · exact get1_mem (a % 256) 0
  | h2 a b =>
    refine ⟨[get0 (a % 256), get1 (a % 256) (b % 256), get2 (b % 256) 0], ?_,
      by simp [encChars, List.replicate]⟩
    intro c hc
    simp only [List.mem_cons, List.mem_singleton, List.not_mem_nil, or_false] at hc
    rcases hc with rfl | rfl | rfl
    · exact get0_mem a
    · exact get1_mem (a % 256) b
    · exact get2_mem (b % 256) 0
  | h3 a b c rest ih =>
    obtain ⟨body, hbody, hrest⟩ := ih
    refine ⟨get0 (a % 256) :: get1 (a % 256) (b % 256) :: get2 (b % 256) (c % 256) ::
      get3 (c % 256) :: body, ?_, ?_⟩
    · intro x hx
      simp only [List.mem_cons] at hx
      rcases hx with rfl | rfl | rfl | rfl | hx
      · exact get0_mem a
      · exact get1_mem (a % 256) b
      · exact get2_mem (b % 256) c
      · exact get3_mem (c % 256)
      · exact hbody x hx
    · have e : (a :: b :: c :: rest).length % 3 = rest.length % 3 := by
        simp only [List.length_cons]; omega
      rw [e, encChars, hrest]
      rfl

/-- Claim C3.  Encoder length law: for a source of `n` bytes `bintob64` stores
`4 * ceil(n/3)` characters, written `4 * ((n + 2) / 3)`, and then one null
byte; the returned pointer is the position of that null byte; the empty source
gives the empty string. -/
theorem bintob64_length_law (B : List Nat) :
    (∃ cs : List Nat, (bintob64 B).mem = cs ++ [0] ∧
        cs.length = 4 * ((B.length + 2) / 3)) ∧
      (bintob64 B).dest = 4 * ((B.length + 2) / 3) ∧
      (bintob64 B).mem.length = (bintob64 B).dest + 1 ∧
      (bintob64 B).mem[(bintob64 B).dest]? = some 0 ∧
      bintob64 [] = ⟨[0], 0⟩ := by
  rw [bintob64_eq]
  refine ⟨⟨encChars B, rfl, encChars_length B⟩, encChars_length B, by simp, ?_, by decide⟩
  simp

/-- Claim C4.  Encoder padding: the stored text is a run of characters without
`=` followed by `k` characters `=` and the null byte, where `k = 0` when the
source length is a multiple of 3, `k = 2` when it leaves remainder 1 and
`k = 1` when it leaves remainder 2; `M`, `Ma`, `Man` give `TQ==`, `TWE=`,
`TWFu`. -/
theorem bintob64_padding (B : List Nat) :
    (∃ (body : List Nat) (k : Nat),
        (bintob64 B).mem = body ++ List.replicate k padChar ++ [0] ∧
        padChar ∉ body ∧
        ((B.length % 3 = 0 ∧ k = 0) ∨ (B.length % 3 = 1 ∧ k = 2) ∨
          (B.length % 3 = 2 ∧ k = 1))) ∧
      bintob64 [0x4D] = ⟨codes "TQ==" ++ [0], 4⟩ ∧
      bintob64 [0x4D, 0x61] = ⟨codes "TWE=" ++ [0], 4⟩ ∧
      bintob64 [0x4D, 0x61, 0x6E] = ⟨codes "TWFu" ++ [0], 4⟩ := by
  refine ⟨?_, by decide, by decide, by decide⟩
  obtain ⟨body, hbody, h⟩ := encChars_split B
  refine ⟨body, (3 - B.length % 3) % 3, by rw [bintob64_eq, h], ?_, by omega⟩
  intro hp
  exact (alphabet_spec _ (hbody _ hp)).2.2.1 rfl

/-- Claim C5.  Encoder output alphabet: every character stored before the null
byte at the returned position is one of the 64 digits or `=`, none of them is
a null byte, and every index into `bintodigit` computed from bytes is below
64. -/
theorem bintob64_alphabet (B : List Nat) :
    (∃ cs : List Nat, (bintob64 B).mem = cs ++ [0] ∧ (bintob64 B).dest = cs.length ∧
        (∀ c ∈ cs, c ∈ alphabet ∨ c = padChar) ∧ 0 ∉ cs) ∧
      (∀ a b c : Nat, get0Index (a % 256) < 64 ∧ get1Index (a % 256) (b % 256) < 64 ∧
        get1Index (a % 256) 0 < 64 ∧ get2Index (b % 256) (c % 256) < 64 ∧
        get2Index (b % 256) 0 < 64 ∧ get3Index (c % 256) < 64) := by
  constructor
  · obtain ⟨body, hbody, h⟩ := encChars_split B
    have hall : ∀ c ∈ encChars B, c ∈ alphabet ∨ c = padChar := by
      intro c hc
      rw [h, List.mem_append] at hc
      rcases hc with hc | hc
      · exact Or.inl (hbody c hc)
      · exact Or.inr (List.eq_of_mem_replicate hc)
    refine ⟨encChars B, by rw [bintob64_eq], by rw [bintob64_eq], hall, ?_⟩
    intro h0
    rcases hall 0 h0 with h1 | h1
    · exact (alphabet_spec 0 h1).2.1 rfl
    · exact absurd h1 (by decide)
  · intro a b c
    have ha : a % 256 < 256 := Nat.mod_lt _ (by norm_num)
    have hb : b % 256 < 256 := Nat.mod_lt _ (by norm_num)
    have hc : c % 256 < 256 := Nat.mod_lt _ (by norm_num)
    exact ⟨get0Index_lt _ ha, get1Index_lt _ _ hb, get1Index_lt _ _ (by norm_num),
      get2Index_lt _ _ hc, get2Index_lt _ _ (by norm_num), get3Index_lt _⟩

/-! ## The encoder against the reference encodings -/

theorem alphabet_getD_aux : ∀ i, i < 65 → alphabet.getD i 0 = bintodigit.getD i 0 := by decide

theorem alphabet_getD (i : Nat) : alphabet.getD i 0 = bintodigit.getD i 0 := by
  by_cases h : i < 65
  · exact alphabet_getD_aux i h
  · rw [List.getD_eq_default _ _ (by rw [alphabet_length]; omega),
      List.getD_eq_default _ _ (by rw [bintodigit_length]; omega)]

theorem encChars_eq_groups (B : List Nat) : (∀ x ∈ B, x < 256) →
    encChars B = rfc4648Groups B := by
  induction B using list_ind3 with
  | h0 => intro _; rfl
  | h1 a =>
    intro hB
    have ha : a < 256 := hB a (by simp)
    simp only [encChars, rfc4648Groups, groupChars, alphabet_getD, Nat.mod_eq_of_lt ha]
    rfl
  | h2 a b =>
    intro hB
    have ha : a < 256 := hB a (by simp)
    have hb : b < 256 := hB b (by simp)
    simp only [encChars, rfc4648Groups, groupChars, alphabet_getD, Nat.mod_eq_of_lt ha,
      Nat.mod_eq_of_lt hb]
    rfl
  | h3 a b c rest ih =>
    intro hB
    have ha : a < 256 := hB a (by simp)
    have hb : b < 256 := hB b (by simp)
    have hc : c < 256 := hB c (by simp)
    have hr : ∀ x ∈ rest, x < 256 := fun x hx => hB x (by simp [hx])
    simp only [encChars, rfc4648Groups, groupChars, alphabet_getD, Nat.mod_eq_of_lt ha,
      Nat.mod_eq_of_lt hb, Nat.mod_eq_of_lt hc, ih hr]
    rfl

theorem sextet0 (a : Nat) : 32 * (a / 128 % 2) + 16 * (a / 64 % 2) + 8 * (a / 32 % 2) +
    4 * (a / 16 % 2) + 2 * (a / 8 % 2) + a / 4 % 2 = get0Index (a % 256) := by
  rw [get0Index_eq]; omega

theorem sextet1 (a b : Nat) : 32 * (a / 2 % 2) + 16 * (a % 2) + 8 * (b / 128 % 2) +
    4 * (b / 64 % 2) + 2 * (b / 32 % 2) + b / 16 % 2 = get1Index (a % 256) (b % 256) := by
  rw [get1Index_eq _ _ (Nat.mod_lt _ (by norm_num))]; omega

theorem sextet2 (b c : Nat) : 32 * (b / 8 % 2) + 16 * (b / 4 % 2) + 8 * (b / 2 % 2) +
    4 * (b % 2) + 2 * (c / 128 % 2) + c / 64 % 2 = get2Index (b % 256) (c % 256) := by
  rw [get2Index_eq _ _ (Nat.mod_lt _ (by norm_num))]; omega

theorem sextet3 (c : Nat) : 32 * (c / 32 % 2) + 16 * (c / 16 % 2) + 8 * (c / 8 % 2) +
    4 * (c / 4 % 2) + 2 * (c / 2 % 2) + c % 2 = get3Index (c % 256) := by
  rw [get3Index_eq]; omega

theorem sextet1_zero (a : Nat) : 32 * (a / 2 % 2) + 16 * (a % 2) + 0 + 0 + 0 + 0 =
    get1Index (a % 256) 0 := by
  rw [get1Index_eq _ _ (by norm_num)]; omega

theorem sextet2_zero (b : Nat) : 32 * (b / 8 % 2) + 16 * (b / 4 % 2) + 8 * (b / 2 % 2) +
    4 * (b % 2) + 0 + 0 = get2Index (b % 256) 0 := by
  rw [get2Index_eq _ _ (by norm_num)]; omega

theorem bitString_length (B : List Nat) : (bitString B).length = 8 * B.length := by
  induction B with
  | nil => rfl
  | cons x xs ih => simp only [bitString, List.length_append, ih, bitsOfByte, List.length_cons,
      List.length_nil]; omega

theorem rfc4648Bits_cons3 (a b c : Nat) (rest : List Nat) :
    rfc4648Bits (a :: b :: c :: rest) =
      get0 (a % 256) :: get1 (a % 256) (b % 256) :: get2 (b % 256) (c % 256) ::
        get3 (c % 256) :: rfc4648Bits rest := by
  have hlen : (bitString (a :: b :: c :: rest)).length % 6 = (bitString rest).length % 6 := by
    simp only [bitString_length, List.length_cons]; omega
  have hpad : padTo6 (bitString (a :: b :: c :: rest)) =
      bitsOfByte a ++ (bitsOfByte b ++ (bitsOfByte c ++ padTo6 (bitString rest))) := by
    rw [padTo6, hlen]
    simp only [bitString, padTo6, List.append_assoc]
  have hsext : sextets (padTo6 (bitString (a :: b :: c :: rest))) =
      get0Index (a % 256) :: get1Index (a % 256) (b % 256) :: get2Index (b % 256) (c % 256) ::
        get3Index (c % 256) :: sextets (padTo6 (bitString rest)) := by
    rw [hpad]
    simp only [bitsOfByte, List.cons_append, List.nil_append, sextets, sextet0, sextet1,
      sextet2, sextet3]
    rfl
  simp only [rfc4648Bits, hsext, List.map_cons, List.length_cons, alphabet_getD,
    List.cons_append]
  have e : ∀ n : Nat, (4 - (n + 1 + 1 + 1 + 1) % 4) % 4 = (4 - n % 4) % 4 := by
    intro n; omega
  rw [e]
  rfl

theorem encChars_eq_bits (B : List Nat) : encChars B = rfc4648Bits B := by
  induction B using list_ind3 with
  | h0 => decide
  | h1 a =>
    simp only [rfc4648Bits, bitString, padTo6, bitsOfByte, List.append_nil, List.length_cons,
      List.length_nil, List.replicate, List.cons_append, List.nil_append, sextets, List.map_cons,
      List.map_nil, Nat.reduceAdd, Nat.reduceMod, Nat.reduceSub]
    rw [sextet0, sextet1_zero]
    simp only [alphabet_getD, encChars]
    rfl
  | h2 a b =>
    simp only [rfc4648Bits, bitString, padTo6, bitsOfByte, List.append_nil, List.length_cons,
      List.length_nil, List.replicate, List.cons_append, List.nil_append, sextets, List.map_cons,
      List.map_nil, Nat.reduceAdd, Nat.reduceMod, Nat.reduceSub]
    rw [sextet0, sextet1, sextet2_zero]
    simp only [alphabet_getD, encChars]
    rfl
  | h3 a b c rest ih => rw [rfc4648Bits_cons3, encChars, ih]

/-- The reference encoder on test vectors of RFC 4648, section 10. -/
theorem rfc4648Bits_vectors :
    rfc4648Bits (codes "") = codes "" ∧ rfc4648Bits (codes "f") = codes "Zg==" ∧
      rfc4648Bits (codes "fo") = codes "Zm8=" ∧ rfc4648Bits (codes "foo") = codes "Zm9v" ∧
      rfc4648Bits (codes "foob") = codes "Zm9vYg==" ∧
      rfc4648Bits (codes "fooba") = codes "Zm9vYmE=" ∧
      rfc4648Bits (codes "foobar") = codes "Zm9vYmFy" := by decide

/-- Claim C2.  The text `bintob64` stores is the RFC 4648 encoding of the
source: the alphabet characters of the consecutive 6-bit groups of the
big-endian bit string, zero-padded on the right to a multiple of 6 bits, filled
with `=` to a multiple of four characters (`rfc4648Bits`); and, group by group,
the characters given by the bit-slice formulas with a missing trailing byte
taken as zero and `=` in the unused positions (`rfc4648Groups`). -/
theorem bintob64_eq_rfc4648 (B : List Nat) (hB : ∀ x ∈ B, x < 256) :
    (bintob64 B).mem = rfc4648Bits B ++ [0] ∧ (bintob64 B).mem = rfc4648Groups B ++ [0] ∧
      (bintob64 B).dest = (rfc4648Bits B).length := by
  rw [bintob64_eq, ← encChars_eq_bits, ← encChars_eq_groups B hB]
  exact ⟨rfl, rfl, rfl⟩

theorem bintob64_eq_rfc4648_witness :
    (∀ x ∈ [0x4D, 0x61, 0x6E, 0xFB, 0x00], x < 256) ∧
      ((bintob64 [0x4D, 0x61, 0x6E, 0xFB, 0x00]).mem =
          rfc4648Bits [0x4D, 0x61, 0x6E, 0xFB, 0x00] ++ [0] ∧
        (bintob64 [0x4D, 0x61, 0x6E, 0xFB, 0x00]).mem =
          rfc4648Groups [0x4D, 0x61, 0x6E, 0xFB, 0x00] ++ [0] ∧
        (bintob64 [0x4D, 0x61, 0x6E, 0xFB, 0x00]).dest =
          (rfc4648Bits [0x4D, 0x61, 0x6E, 0xFB, 0x00]).length) :=
  ⟨by decide, bintob64_eq_rfc4648 [0x4D, 0x61, 0x6E, 0xFB, 0x00] (by decide)⟩

/-! ## The decoder on a run of digits -/

/-- Digits in front are consumed group by group; what stays is the incomplete
last group. -/
theorem loop_digits (l : List Nat) : (∀ c ∈ l, digit c < 64) →
    ∀ (t : List Nat) (p : Nat) (out : List Nat),
      b64tobinLoop (l ++ t) p out =
        b64tobinLoop (l.drop (4 * (l.length / 4)) ++ t) (p + 3 * (l.length / 4))
          (out ++ decGroups l) := by
  induction l using list_ind4 with
  | h0 => intro _ t p out; simp [decGroups]
  | h1 a => intro _ t p out; simp [decGroups]
  | h2 a b => intro _ t p out; simp [decGroups]
  | h3 a b c => intro _ t p out; simp [decGroups]
  | h4 a b c d rest ih =>
    intro hd t p out
    have hd' : ∀ x ∈ rest, digit x < 64 := fun x hx => hd x (by simp [hx])
    have e : a :: b :: c :: d :: rest ++ t = a :: b :: c :: d :: (rest ++ t) := rfl
    have e1 : (a :: b :: c :: d :: rest).length / 4 = rest.length / 4 + 1 := by
      simp only [List.length_cons]; omega
    have e2 : 4 * (rest.length / 4 + 1) = 4 * (rest.length / 4) + 1 + 1 + 1 + 1 := by omega
    rw [e, loop_group a b c d _ p out (hd a (by simp)) (hd b (by simp)) (hd c (by simp))
      (hd d (by simp)), ih hd', decGroups_cons4 a b c d rest, List.append_assoc, e1, e2]
    simp only [List.drop_succ_cons]
    congr 1
    omega

/-- The incomplete last group of a run of digits. -/
theorem tail_cases (l : List Nat) (h : ∀ c ∈ l, digit c < 64) :
    (l.length % 4 = 0 ∧ l.drop (4 * (l.length / 4)) = []) ∨
    (l.length % 4 = 1 ∧ ∃ x, l.drop (4 * (l.length / 4)) = [x] ∧ digit x < 64) ∨
    (l.length % 4 = 2 ∧ ∃ x y, l.drop (4 * (l.length / 4)) = [x, y] ∧
      digit x < 64 ∧ digit y < 64) ∨
    (l.length % 4 = 3 ∧ ∃ x y z, l.drop (4 * (l.length / 4)) = [x, y, z] ∧
      digit x < 64 ∧ digit y < 64 ∧ digit z < 64) := by
  have hlen : (l.drop (4 * (l.length / 4))).length = l.length % 4 := by
    rw [List.length_drop]; omega
  have hmem : ∀ c ∈ l.drop (4 * (l.length / 4)), digit c < 64 :=
    fun c hc => h c (List.mem_of_mem_drop hc)
  generalize l.drop (4 * (l.length / 4)) = r at hlen hmem
  have h4 : l.length % 4 < 4 := Nat.mod_lt _ (by norm_num)
  match r, hlen, hmem with
  | [], hlen, _ => left; exact ⟨hlen.symm, rfl⟩
  | [x], hlen, hmem =>
    right; left; exact ⟨hlen.symm, x, rfl, hmem x (by simp)⟩
  | [x, y], hlen, hmem =>
    right; right; left; exact ⟨hlen.symm, x, y, rfl, hmem x (by simp), hmem y (by simp)⟩
  | [x, y, z], hlen, hmem =>
    right; right; right
    exact ⟨hlen.symm, x, y, z, rfl, hmem x (by simp), hmem y (by simp), hmem z (by simp)⟩
  | _ :: _ :: _ :: _ :: _, hlen, _ =>
    simp only [List.length_cons] at hlen; omega

theorem digits_of_alphabet {l : List Nat} (h : ∀ c ∈ l, c ∈ alphabet) :
    ∀ c ∈ l, digit c < 64 := fun c hc => digit_of_mem (h c hc)

theorem digit_ge_of_not_mem {c : Nat} (h : c < 256) (h1 : c ∉ alphabet) : 64 ≤ digit c := by
  by_cases h2 : c = padChar
  · rw [h2, digit_padChar]; omega
  · rw [digit_invalid h h1 h2]

set_option maxRecDepth 100000 in
theorem digittobin_eq_65 : ∀ c, c < 256 → digittobin.getD c 0 = 65 → c = padChar := by decide

theorem digit_eq_65 {c : Nat} (h : c < 256) (h1 : digit c = 65) : c = padChar := by
  simp only [digit, Nat.mod_eq_of_lt h] at h1
  exact digittobin_eq_65 c h h1

/-- Claim C6.  Decoder length law: on a null-terminated text of `n` characters,
`n` a multiple of 4, that ends in `k ≤ 2` characters `=` after digits only,
`b64tobin` succeeds, stores `3 * n / 4 - k` bytes and returns the position
behind them. -/
theorem b64tobin_length_law (body : List Nat) (k : Nat) (hbody : ∀ c ∈ body, c ∈ alphabet)
    (hk : k ≤ 2) (hn : (body.length + k) % 4 = 0) :
    ∃ out : List Nat,
      b64tobin (body ++ List.replicate k padChar ++ [0]) =
        ⟨out, Ret.ptr (3 * (body.length + k) / 4 - k)⟩ ∧
      out.length = 3 * (body.length + k) / 4 - k := by
  have hd := digits_of_alphabet hbody
  rw [b64tobin, List.append_assoc, loop_digits body hd]
  rcases tail_cases body hd with ⟨hm, hr⟩ | ⟨hm, x, hr, hx⟩ | ⟨hm, x, y, hr, hx, hy⟩ |
    ⟨hm, x, y, z, hr, hx, hy, hz⟩
  · have hk0 : k = 0 := by omega
    subst hk0
    rw [hr]
    refine ⟨decGroups body, ?_, ?_⟩
    · simp only [List.replicate, List.nil_append]
      rw [loop_stop 0 [] _ _ (by rw [digit_zero])]
      simp only [List.nil_append, DecResult.mk.injEq, Ret.ptr.injEq, true_and]
      omega
    · rw [decGroups_length]; omega
  · omega
  · have hk2 : k = 2 := by omega
    subst hk2
    rw [hr]
    refine ⟨decGroups body ++ [((digit x <<< 2) ||| (digit y >>> 4)) % 256], ?_, ?_⟩
    · simp only [List.replicate, List.cons_append, List.nil_append]
      rw [loop_pad2 x y padChar padChar [0] _ _ hx hy digit_padChar digit_padChar]
      simp only [List.nil_append, DecResult.mk.injEq, Ret.ptr.injEq, true_and]
      omega
    · rw [List.length_append, decGroups_length, List.length_singleton]; omega
  · have hk1 : k = 1 := by omega
    subst hk1
    rw [hr]
    refine ⟨decGroups body ++ [((digit x <<< 2) ||| (digit y >>> 4)) % 256,
      ((digit y <<< 4) ||| (digit z >>> 2)) % 256], ?_, ?_⟩
    · simp only [List.replicate, List.cons_append, List.nil_append]
      rw [loop_pad1 x y z padChar [0] _ _ hx hy hz digit_padChar]
      simp only [List.nil_append, DecResult.mk.injEq, Ret.ptr.injEq, true_and]
      omega
    · rw [List.length_append, decGroups_length]
      simp only [List.length_cons, List.length_nil]
      omega

theorem b64tobin_length_law_witness :
    (∀ c ∈ codes "TWFuTWE", c ∈ alphabet) ∧ 1 ≤ 2 ∧ ((codes "TWFuTWE").length + 1) % 4 = 0 ∧
      ∃ out : List Nat,
        b64tobin (codes "TWFuTWE" ++ List.replicate 1 padChar ++ [0]) =
          ⟨out, Ret.ptr (3 * ((codes "TWFuTWE").length + 1) / 4 - 1)⟩ ∧
        out.length = 3 * ((codes "TWFuTWE").length + 1) / 4 - 1 :=
  ⟨by decide, by decide, by decide,
    b64tobin_length_law (codes "TWFuTWE") 1 (by decide) (by decide) (by decide)⟩

/-- Claim C7.  End of input at a group boundary: after `m` complete groups of
four digits, a remainder that is empty or begins with a character that is no
digit (`=` included) ends the decoding with success; `3 * m` bytes are stored,
the position behind them is returned, and the remainder changes nothing.  The
empty string decodes to zero bytes. -/
theorem b64tobin_group_boundary (m : Nat) (body rest : List Nat)
    (hbody : ∀ c ∈ body, c ∈ alphabet) (hlen : body.length = 4 * m)
    (hrest : ∀ c ∈ rest.head?, c < 256 ∧ c ∉ alphabet) :
    (∃ out : List Nat, b64tobin (body ++ rest ++ [0]) = ⟨out, Ret.ptr (3 * m)⟩ ∧
        out.length = 3 * m ∧ b64tobin (body ++ [0]) = ⟨out, Ret.ptr (3 * m)⟩) ∧
      b64tobin [0] = ⟨[], Ret.ptr 0⟩ := by
  refine ⟨?_, by decide⟩
  have hd := digits_of_alphabet hbody
  have hm : body.length % 4 = 0 := by omega
  have hq : body.length / 4 = m := by omega
  have hstop : ∀ t : List Nat, (∀ c ∈ t.head?, c < 256 ∧ c ∉ alphabet) →
      b64tobin (body ++ (t ++ [0])) = ⟨decGroups body, Ret.ptr (3 * m)⟩ := by
    intro t ht
    rw [b64tobin, loop_groups body hd hm, hq]
    cases t with
    | nil =>
      rw [List.nil_append, loop_stop 0 [] _ _ (by rw [digit_zero])]
      simp
    | cons c t' =>
      have hc := ht c (by simp)
      rw [List.cons_append, loop_stop c _ _ _ (digit_ge_of_not_mem hc.1 hc.2)]
      simp
  refine ⟨decGroups body, ?_, ?_, ?_⟩
  · rw [List.append_assoc]; exact hstop rest hrest
  · rw [decGroups_length, hq]
  · exact hstop [] (by simp)

theorem b64tobin_group_boundary_witness :
    (∀ c ∈ codes "TWFu", c ∈ alphabet) ∧ (codes "TWFu").length = 4 * 1 ∧
      (∀ c ∈ (codes "=WE=").head?, c < 256 ∧ c ∉ alphabet) ∧
      ((∃ out : List Nat, b64tobin (codes "TWFu" ++ codes "=WE=" ++ [0]) = ⟨out, Ret.ptr (3 * 1)⟩ ∧
          out.length = 3 * 1 ∧ b64tobin (codes "TWFu" ++ [0]) = ⟨out, Ret.ptr (3 * 1)⟩) ∧
        b64tobin [0] = ⟨[], Ret.ptr 0⟩) :=
  ⟨by decide, by decide, by decide,
    b64tobin_group_boundary 1 (codes "TWFu") (codes "=WE=") (by decide) (by decide) (by decide)⟩

/-- Claim C8, as stated, fails: `!WE=` holds the invalid character `!` before
its null byte, and `b64tobin` returns `dest` (success, zero bytes), not null. -/
theorem invalid_char_at_group_start_accepted :
    33 ∈ codes "!WE=" ∧ 33 ∉ alphabet ∧ 33 ≠ padChar ∧ 0 ∉ codes "!WE=" ∧
      b64tobin (codes "!WE=" ++ [0]) = ⟨[], Ret.ptr 0⟩ ∧
      (b64tobin (codes "!WE=" ++ [0])).ret ≠ Ret.null := by decide

/-- Claim C8, amended.  When the first character that is no digit is an invalid
character (neither digit nor `=`) at index `j`, `b64tobin` returns null if `j`
is no multiple of 4; if `j` is a multiple of 4 it returns the position behind
the `3 * (j / 4)` bytes of the groups in front. -/
theorem b64tobin_invalid_char (pre : List Nat) (x : Nat) (rest : List Nat)
    (hpre : ∀ c ∈ pre, c ∈ alphabet) (hx : x < 256) (hx1 : x ∉ alphabet)
    (hx2 : x ≠ padChar) :
    (b64tobin (pre ++ x :: rest)).ret =
      if pre.length % 4 = 0 then Ret.ptr (3 * (pre.length / 4)) else Ret.null := by
  have hd := digits_of_alphabet hpre
  have hdx : digit x = 64 := digit_invalid hx hx1 hx2
  rw [b64tobin, loop_digits pre hd]
  rcases tail_cases pre hd with ⟨hm, hr⟩ | ⟨hm, a, hr, ha⟩ | ⟨hm, a, b, hr, ha, hb⟩ |
    ⟨hm, a, b, c, hr, ha, hb, hc⟩
  · rw [hr, List.nil_append, loop_stop x _ _ _ (by omega)]
    simp [hm]
  · rw [hr, List.cons_append, List.nil_append, loop_fail2 a x _ _ _ ha (by omega)]
    simp [hm]
  · rw [hr, List.cons_append, List.cons_append, List.nil_append,
      loop_fail3 a b x _ _ _ ha hb hdx]
    simp [hm]
  · rw [hr, List.cons_append, List.cons_append, List.cons_append, List.nil_append,
      loop_fail4 a b c x _ _ _ ha hb (by omega) hdx]
    simp [hm]

theorem b64tobin_invalid_char_witness :
    (∀ c ∈ codes "TW", c ∈ alphabet) ∧ 33 < 256 ∧ 33 ∉ alphabet ∧ 33 ≠ padChar ∧
      (b64tobin (codes "TW" ++ 33 :: [padChar, 0])).ret =
        if (codes "TW").length % 4 = 0 then Ret.ptr (3 * ((codes "TW").length / 4))
        else Ret.null :=
  ⟨by decide, by decide, by decide, by decide,
    b64tobin_invalid_char (codes "TW") 33 [padChar, 0] (by decide) (by decide) (by decide)
      (by decide)⟩

/-- Claim C9, as stated, fails: in `TWE=TWFu` digits follow the `=`, and
`b64tobin` returns success with the two bytes of `TWE=`. -/
theorem data_after_complete_group_accepted :
    (∃ i j : Nat, i < j ∧ (codes "TWE=TWFu")[i]? = some padChar ∧
        ∃ c ∈ alphabet, (codes "TWE=TWFu")[j]? = some c) ∧
      b64tobin (codes "TWE=TWFu" ++ [0]) = ⟨[0x4D, 0x61], Ret.ptr 2⟩ ∧
      (b64tobin (codes "TWE=TWFu" ++ [0])).ret ≠ Ret.null :=
  ⟨⟨3, 4, by decide, by decide, 84, by decide, by decide⟩, by decide, by decide⟩

/-- The outcome of the loop when the first character that is no digit is `=`,
by the place of that `=` in its group. -/
theorem pad_outcome (pre : List Nat) (hd : ∀ c ∈ pre, digit c < 64) :
    ∃ D : List Nat, D.length = 3 * (pre.length / 4) + (pre.length % 4 - 1) ∧
      ((pre.length % 4 = 0 ∧
          ∀ t, b64tobin (pre ++ padChar :: t) = ⟨D, Ret.ptr (3 * (pre.length / 4))⟩) ∨
        (pre.length % 4 = 1 ∧ ∀ t, b64tobin (pre ++ padChar :: t) = ⟨D, Ret.null⟩) ∨
        (pre.length % 4 = 2 ∧
          ∀ e t, b64tobin (pre ++ padChar :: e :: t) =
            ⟨D, if digit e = 65 then Ret.ptr (3 * (pre.length / 4) + 1) else Ret.null⟩) ∨
        (pre.length % 4 = 3 ∧
          ∀ t, b64tobin (pre ++ padChar :: t) = ⟨D, Ret.ptr (3 * (pre.length / 4) + 2)⟩)) := by
  have hp := digit_padChar
  rcases tail_cases pre hd with ⟨hm, hr⟩ | ⟨hm, a, hr, ha⟩ | ⟨hm, a, b, hr, ha, hb⟩ |
    ⟨hm, a, b, c, hr, ha, hb, hc⟩
  · refine ⟨decGroups pre, by rw [decGroups_length]; omega, Or.inl ⟨hm, ?_⟩⟩
    intro t
    rw [b64tobin, loop_digits pre hd, hr, List.nil_append, loop_stop padChar _ _ _ (by omega)]
    simp
  · refine ⟨decGroups pre, by rw [decGroups_length]; omega, Or.inr (Or.inl ⟨hm, ?_⟩)⟩
    intro t
    rw [b64tobin, loop_digits pre hd, hr, List.cons_append, List.nil_append,
      loop_fail2 a padChar _ _ _ ha (by omega)]
    simp
  · refine ⟨decGroups pre ++ [((digit a <<< 2) ||| (digit b >>> 4)) % 256], ?_,
      Or.inr (Or.inr (Or.inl ⟨hm, ?_⟩))⟩
    · rw [List.length_append, decGroups_length, List.length_singleton]; omega
    · intro e t
      rw [b64tobin, loop_digits pre hd, hr, List.cons_append, List.cons_append,
        List.nil_append]
      have hle := digit_le e
      by_cases h64 : digit e = 64
      · rw [loop_fail4 a b padChar e _ _ _ ha hb (by omega) h64, if_neg (by omega)]
        simp
      · by_cases h65 : digit e = 65
        · rw [loop_pad2 a b padChar e _ _ _ ha hb hp h65, if_pos h65]
          simp
        · rw [loop_pad_data a b padChar e _ _ _ ha hb hp (by omega), if_neg h65]
          simp
  · refine ⟨decGroups pre ++ [((digit a <<< 2) ||| (digit b >>> 4)) % 256,
      ((digit b <<< 4) ||| (digit c >>> 2)) % 256], ?_, Or.inr (Or.inr (Or.inr ⟨hm, ?_⟩))⟩
    · rw [List.length_append, decGroups_length]
      simp only [List.length_cons, List.length_nil]
      omega
    · intro t
      rw [b64tobin, loop_digits pre hd, hr, List.cons_append, List.cons_append,
        List.cons_append, List.nil_append, loop_pad1 a b c padChar _ _ _ ha hb hc hp]
      simp

theorem digit_eq_65_iff {e : Nat} (he : e < 256) : digit e = 65 ↔ e = padChar :=
  ⟨digit_eq_65 he, fun h => by rw [h, digit_padChar]⟩

/-- Claim C9, amended.  When the first character that is no digit is `=` at
index `j` and a further character `e` follows it, `b64tobin` returns null
exactly when `j % 4 = 1`, or `j % 4 = 2` and `e` is not `=`; in every other
case it returns the position `3 * (j / 4) + (j % 4 - 1)` behind the bytes
stored; that many bytes are stored in all cases; the outcome does not depend
on what lies behind `e`, and when `j % 4` is not 2 it does not depend on
anything behind the `=`, also when nothing lies behind it.  `TW=E` gives
null. -/
theorem b64tobin_data_after_padding (pre : List Nat) (e : Nat) (rest : List Nat)
    (hpre : ∀ c ∈ pre, c ∈ alphabet) (he : e < 256) :
    ((b64tobin (pre ++ padChar :: e :: rest)).ret = Ret.null ↔
        (pre.length % 4 = 1 ∨ (pre.length % 4 = 2 ∧ e ≠ padChar))) ∧
      (b64tobin (pre ++ padChar :: e :: rest)).ret =
        (if pre.length % 4 = 1 ∨ (pre.length % 4 = 2 ∧ e ≠ padChar) then Ret.null
          else Ret.ptr (3 * (pre.length / 4) + (pre.length % 4 - 1))) ∧
      (b64tobin (pre ++ padChar :: e :: rest)).dest.length =
        3 * (pre.length / 4) + (pre.length % 4 - 1) ∧
      (∀ rest', b64tobin (pre ++ padChar :: e :: rest') =
        b64tobin (pre ++ padChar :: e :: rest)) ∧
      (pre.length % 4 ≠ 2 → ∀ t, b64tobin (pre ++ padChar :: t) =
        b64tobin (pre ++ padChar :: e :: rest)) ∧
      b64tobin (codes "TW=E" ++ [0]) = ⟨[0x4D], Ret.null⟩ := by
  have hd := digits_of_alphabet hpre
  have h65 := digit_eq_65_iff he
  obtain ⟨D, hD, h⟩ := pad_outcome pre hd
  have hret : (b64tobin (pre ++ padChar :: e :: rest)).ret =
      (if pre.length % 4 = 1 ∨ (pre.length % 4 = 2 ∧ e ≠ padChar) then Ret.null
        else Ret.ptr (3 * (pre.length / 4) + (pre.length % 4 - 1))) := by
    rcases h with ⟨hm, h⟩ | ⟨hm, h⟩ | ⟨hm, h⟩ | ⟨hm, h⟩
    · rw [h, if_neg (by omega)]
      simp [hm]
    · rw [h, if_pos (Or.inl hm)]
    · rw [h]
      by_cases hp : e = padChar
      · rw [if_pos (h65.mpr hp), if_neg (by simp [hm, hp])]
        simp [hm]
      · rw [if_neg (fun hh => hp (h65.mp hh)), if_pos (Or.inr ⟨hm, hp⟩)]
    · rw [h, if_neg (by omega)]
      simp [hm]
  refine ⟨?_, hret, ?_, ?_, ?_, by decide⟩
  · rw [hret]
    split_ifs with hc
    · exact ⟨fun _ => hc, fun _ => rfl⟩
    · exact ⟨fun hh => (by cases hh), fun hh => absurd hh hc⟩
  · rcases h with ⟨hm, h⟩ | ⟨hm, h⟩ | ⟨hm, h⟩ | ⟨hm, h⟩ <;> rw [h] <;> exact hD
  · intro rest'
    rcases h with ⟨hm, h⟩ | ⟨hm, h⟩ | ⟨hm, h⟩ | ⟨hm, h⟩
    · rw [h, h]
    · rw [h, h]
    · rw [h, h]
    · rw [h, h]
  · intro hne t
    rcases h with ⟨hm, h⟩ | ⟨hm, h⟩ | ⟨hm, h⟩ | ⟨hm, h⟩
    · rw [h, h]
    · rw [h, h]
    · exact absurd hm hne
    · rw [h, h]

theorem b64tobin_data_after_padding_witness :
    (∀ c ∈ codes "TWE", c ∈ alphabet) ∧ 84 < 256 ∧
      (((b64tobin (codes "TWE" ++ padChar :: 84 :: (codes "WFu" ++ [0]))).ret = Ret.null ↔
          ((codes "TWE").length % 4 = 1 ∨ ((codes "TWE").length % 4 = 2 ∧ 84 ≠ padChar))) ∧
        (b64tobin (codes "TWE" ++ padChar :: 84 :: (codes "WFu" ++ [0]))).ret =
          (if (codes "TWE").length % 4 = 1 ∨ ((codes "TWE").length % 4 = 2 ∧ 84 ≠ padChar)
            then Ret.null
            else Ret.ptr (3 * ((codes "TWE").length / 4) + ((codes "TWE").length % 4 - 1))) ∧
        (b64tobin (codes "TWE" ++ padChar :: 84 :: (codes "WFu" ++ [0]))).dest.length =
          3 * ((codes "TWE").length / 4) + ((codes "TWE").length % 4 - 1) ∧
        (∀ rest', b64tobin (codes "TWE" ++ padChar :: 84 :: rest') =
          b64tobin (codes "TWE" ++ padChar :: 84 :: (codes "WFu" ++ [0]))) ∧
        ((codes "TWE").length % 4 ≠ 2 → ∀ t, b64tobin (codes "TWE" ++ padChar :: t) =
          b64tobin (codes "TWE" ++ padChar :: 84 :: (codes "WFu" ++ [0]))) ∧
        b64tobin (codes "TW=E" ++ [0]) = ⟨[0x4D], Ret.null⟩) :=
  ⟨by decide, by decide,
    b64tobin_data_after_padding (codes "TWE") 84 (codes "WFu" ++ [0]) (by decide)
      (by decide)⟩

/-- Claim C10.  Incomplete trailing group: a null-terminated text of digits
only whose length is no multiple of 4 makes `b64tobin` return null. -/
theorem b64tobin_incomplete_group (cs : List Nat) (hcs : ∀ c ∈ cs, c ∈ alphabet)
    (hn : cs.length % 4 ≠ 0) : (b64tobin (cs ++ [0])).ret = Ret.null := by
  have hd := digits_of_alphabet hcs
  have hz := digit_zero
  rw [b64tobin, loop_digits cs hd]
  rcases tail_cases cs hd with ⟨hm, hr⟩ | ⟨hm, a, hr, ha⟩ | ⟨hm, a, b, hr, ha, hb⟩ |
    ⟨hm, a, b, c, hr, ha, hb, hc⟩
  · exact absurd hm hn
  · rw [hr, List.cons_append, List.nil_append, loop_fail2 a 0 _ _ _ ha (by omega)]
  · rw [hr, List.cons_append, List.cons_append, List.nil_append,
      loop_fail3 a b 0 _ _ _ ha hb hz]
  · rw [hr, List.cons_append, List.cons_append, List.cons_append, List.nil_append,
      loop_fail4 a b c 0 _ _ _ ha hb (by omega) hz]

theorem b64tobin_incomplete_group_witness :
    (∀ c ∈ codes "TWE", c ∈ alphabet) ∧ (codes "TWE").length % 4 ≠ 0 ∧
      (b64tobin (codes "TWE" ++ [0])).ret = Ret.null :=
  ⟨by decide, by decide, b64tobin_incomplete_group (codes "TWE") (by decide) (by decide)⟩

/-- Claim C11.  Inconsistent padding: after `m` complete groups of digits, two
digits and `=`, any fourth character other than `=` (a digit, an invalid
character, the null byte that ends the string) makes `b64tobin` return null;
with `=` as the fourth character it succeeds with `3 * m + 1` bytes. -/
theorem b64tobin_inconsistent_padding (m : Nat) (body : List Nat) (x y e : Nat)
    (rest : List Nat) (hbody : ∀ c ∈ body, c ∈ alphabet) (hlen : body.length = 4 * m)
    (hx : x ∈ alphabet) (hy : y ∈ alphabet) (he : e < 256) (hne : e ≠ padChar) :
    (b64tobin (body ++ x :: y :: padChar :: e :: rest)).ret = Ret.null ∧
      ∃ out : List Nat,
        b64tobin (body ++ x :: y :: padChar :: padChar :: rest) = ⟨out, Ret.ptr (3 * m + 1)⟩ ∧
        out.length = 3 * m + 1 := by
  have hd := digits_of_alphabet hbody
  have hm : body.length % 4 = 0 := by omega
  have hq : body.length / 4 = m := by omega
  have hp := digit_padChar
  have hdx := digit_of_mem hx
  have hdy := digit_of_mem hy
  constructor
  · rw [b64tobin, loop_groups body hd hm]
    have hle := digit_le e
    by_cases h64 : digit e = 64
    · rw [loop_fail4 x y padChar e _ _ _ hdx hdy (by omega) h64]
    · have h65 : digit e ≠ 65 := fun h => hne (digit_eq_65 he h)
      rw [loop_pad_data x y padChar e _ _ _ hdx hdy hp (by omega)]
  · refine ⟨decGroups body ++ [((digit x <<< 2) ||| (digit y >>> 4)) % 256], ?_, ?_⟩
    · rw [b64tobin, loop_groups body hd hm, loop_pad2 x y padChar padChar _ _ _ hdx hdy hp hp,
        hq]
      simp
    · rw [List.length_append, decGroups_length, hq, List.length_singleton]

theorem b64tobin_inconsistent_padding_witness :
    (∀ c ∈ codes "TWFu", c ∈ alphabet) ∧ (codes "TWFu").length = 4 * 1 ∧ 84 ∈ alphabet ∧
      87 ∈ alphabet ∧ 69 < 256 ∧ 69 ≠ padChar ∧
      ((b64tobin (codes "TWFu" ++ 84 :: 87 :: padChar :: 69 :: [0])).ret = Ret.null ∧
        ∃ out : List Nat,
          b64tobin (codes "TWFu" ++ 84 :: 87 :: padChar :: padChar :: [0]) =
            ⟨out, Ret.ptr (3 * 1 + 1)⟩ ∧
          out.length = 3 * 1 + 1) :=
  ⟨by decide, by decide, by decide, by decide, by decide, by decide,
    b64tobin_inconsistent_padding 1 (codes "TWFu") 84 87 69 [0] (by decide) (by decide)
      (by decide) (by decide) (by decide) (by decide)⟩

/-- Claim C12.  Padding or an invalid character in the second place of a
group: after `m` complete groups of digits and one digit, a character that is
`=` or no digit (the null byte that ends the string included) makes `b64tobin`
return null, whatever follows. -/
theorem b64tobin_second_place (m : Nat) (body : List Nat) (x e : Nat) (rest : List Nat)
    (hbody : ∀ c ∈ body, c ∈ alphabet) (hlen : body.length = 4 * m) (hx : x ∈ alphabet)
    (he : e < 256) (hne : e ∉ alphabet) :
    (b64tobin (body ++ x :: e :: rest)).ret = Ret.null := by
  have hd := digits_of_alphabet hbody
  have hm : body.length % 4 = 0 := by omega
  rw [b64tobin, loop_groups body hd hm,
    loop_fail2 x e _ _ _ (digit_of_mem hx) (digit_ge_of_not_mem he hne)]

theorem b64tobin_second_place_witness :
    (∀ c ∈ codes "", c ∈ alphabet) ∧ (codes "").length = 4 * 0 ∧ 84 ∈ alphabet ∧
      padChar < 256 ∧ padChar ∉ alphabet ∧
      (b64tobin (codes "" ++ 84 :: padChar :: (codes "WE" ++ [0]))).ret = Ret.null :=
  ⟨by decide, by decide, by decide, by decide, by decide,
    b64tobin_second_place 0 (codes "") 84 padChar (codes "WE" ++ [0]) (by decide) (by decide)
      (by decide) (by decide) (by decide)⟩

set_option maxRecDepth 100000 in
/-- Claim C16.  The reverse lookup table has 256 entries, inverts the
alphabet (`digittobin[bintodigit[i]] = i` for `i < 64`), holds 65 at `=`, and
holds 64 at every other byte, the null byte included.  The alphabet is `A-Z`,
`a-z`, `0-9`, `+`, `/` in that order, 64 distinct characters. -/
theorem digittobin_inverse_of_bintodigit :
    digittobin.length = 256 ∧
      (∀ i, i < 64 → digittobin.getD (bintodigit.getD i 0) 0 = i) ∧
      digittobin.getD padChar 0 = terminator ∧ padChar = 61 ∧ terminator = 65 ∧
      (∀ c, c < 256 → c ∉ alphabet → c ≠ padChar → digittobin.getD c 0 = notabase64) ∧
      digittobin.getD 0 0 = notabase64 ∧ notabase64 = 64 ∧
      alphabet =
        codes "ABCDEFGHIJKLMNOPQRSTUVWXYZabcdefghijklmnopqrstuvwxyz0123456789+/" ∧
      bintodigit.take 64 = alphabet ∧ alphabet.length = 64 ∧ alphabet.Nodup := by
  refine ⟨by decide, by decide, by decide, rfl, rfl, by decide, by decide, rfl, by decide, rfl,
    by decide, by decide⟩

set_option maxRecDepth 100000 in
theorem indexOf_alphabet_aux : ∀ c ∈ alphabet, alphabet.indexOf c = digittobin.getD c 0 := by
  decide

/-- The position of a digit in the alphabet is its table value. -/
theorem indexOf_alphabet {c : Nat} (h : c ∈ alphabet) : alphabet.indexOf c = digit c := by
  have h1 := alphabet_spec c h
  simp only [digit, Nat.mod_eq_of_lt h1.1]
  exact indexOf_alphabet_aux c h

/-- Claim C18.  The low bits of the last digit before padding are ignored:
behind complete groups of digits, `xy==` and `xy'==` decode alike when the
indices of `y` and `y'` agree above their low 4 bits, and `xyz=` and `xyz'=`
decode alike when the indices of `z` and `z'` agree above their low 2 bits;
all four calls succeed.  `TQ==` and `TR==` both give the byte `0x4D`. -/
theorem b64tobin_ignores_low_bits (P : List Nat) (x y y' z z' : Nat)
    (hP : ∀ c ∈ P, c ∈ alphabet) (hlen : P.length % 4 = 0) (hx : x ∈ alphabet)
    (hy : y ∈ alphabet) (hy' : y' ∈ alphabet) (hz : z ∈ alphabet) (hz' : z' ∈ alphabet)
    (hyy : alphabet.indexOf y >>> 4 = alphabet.indexOf y' >>> 4)
    (hzz : alphabet.indexOf z >>> 2 = alphabet.indexOf z' >>> 2) :
    (∃ out : List Nat,
        b64tobin (P ++ [x, y, padChar, padChar, 0]) = ⟨out, Ret.ptr out.length⟩ ∧
        b64tobin (P ++ [x, y', padChar, padChar, 0]) = ⟨out, Ret.ptr out.length⟩) ∧
      (∃ out : List Nat,
        b64tobin (P ++ [x, y, z, padChar, 0]) = ⟨out, Ret.ptr out.length⟩ ∧
        b64tobin (P ++ [x, y, z', padChar, 0]) = ⟨out, Ret.ptr out.length⟩) ∧
      b64tobin (codes "TQ==" ++ [0]) = ⟨[0x4D], Ret.ptr 1⟩ ∧
      b64tobin (codes "TR==" ++ [0]) = ⟨[0x4D], Ret.ptr 1⟩ := by
  have hd := digits_of_alphabet hP
  have hp := digit_padChar
  have hdx := digit_of_mem hx
  have hdy := digit_of_mem hy
  have hdy' := digit_of_mem hy'
  have hdz := digit_of_mem hz
  have hdz' := digit_of_mem hz'
  rw [indexOf_alphabet hy, indexOf_alphabet hy', Nat.shiftRight_eq_div_pow,
    Nat.shiftRight_eq_div_pow] at hyy
  rw [indexOf_alphabet hz, indexOf_alphabet hz', Nat.shiftRight_eq_div_pow,
    Nat.shiftRight_eq_div_pow] at hzz
  have hyy2 : digit y / 16 = digit y' / 16 := by simpa using hyy
  have hzz2 : digit z / 4 = digit z' / 4 := by simpa using hzz
  refine ⟨⟨decGroups P ++ [((digit x <<< 2) ||| (digit y >>> 4)) % 256], ?_, ?_⟩,
    ⟨decGroups P ++ [((digit x <<< 2) ||| (digit y >>> 4)) % 256,
      ((digit y <<< 4) ||| (digit z >>> 2)) % 256], ?_, ?_⟩, by decide, by decide⟩
  · rw [b64tobin, loop_groups P hd hlen, loop_pad2 x y padChar padChar _ _ _ hdx hdy hp hp]
    simp only [List.nil_append, List.length_append, decGroups_length, List.length_singleton,
      DecResult.mk.injEq, Ret.ptr.injEq, true_and]
    omega
  · rw [b64tobin, loop_groups P hd hlen, loop_pad2 x y' padChar padChar _ _ _ hdx hdy' hp hp,
      byte1_eq _ _ hdy, byte1_eq _ _ hdy', hyy2]
    simp only [List.nil_append, List.length_append, decGroups_length, List.length_singleton,
      DecResult.mk.injEq, Ret.ptr.injEq, true_and]
    omega
  · rw [b64tobin, loop_groups P hd hlen, loop_pad1 x y z padChar _ _ _ hdx hdy hdz hp]
    simp only [List.nil_append, List.length_append, decGroups_length, List.length_cons,
      List.length_nil, DecResult.mk.injEq, Ret.ptr.injEq, true_and]
    omega
  · rw [b64tobin, loop_groups P hd hlen, loop_pad1 x y z' padChar _ _ _ hdx hdy hdz' hp,
      byte2_eq _ _ hdz, byte2_eq _ _ hdz', hzz2]
    simp only [List.nil_append, List.length_append, decGroups_length, List.length_cons,
      List.length_nil, DecResult.mk.injEq, Ret.ptr.injEq, true_and]
    omega

theorem b64tobin_ignores_low_bits_witness :
    (∀ c ∈ codes "TWFu", c ∈ alphabet) ∧ (codes "TWFu").length % 4 = 0 ∧
      alphabet.indexOf 81 >>> 4 = alphabet.indexOf 82 >>> 4 ∧
      alphabet.indexOf 69 >>> 2 = alphabet.indexOf 70 >>> 2 ∧
      ((∃ out : List Nat,
          b64tobin (codes "TWFu" ++ [84, 81, padChar, padChar, 0]) = ⟨out, Ret.ptr out.length⟩ ∧
          b64tobin (codes "TWFu" ++ [84, 82, padChar, padChar, 0]) =
            ⟨out, Ret.ptr out.length⟩) ∧
        (∃ out : List Nat,
          b64tobin (codes "TWFu" ++ [84, 81, 69, padChar, 0]) = ⟨out, Ret.ptr out.length⟩ ∧
          b64tobin (codes "TWFu" ++ [84, 81, 70, padChar, 0]) = ⟨out, Ret.ptr out.length⟩) ∧
        b64tobin (codes "TQ==" ++ [0]) = ⟨[0x4D], Ret.ptr 1⟩ ∧
        b64tobin (codes "TR==" ++ [0]) = ⟨[0x4D], Ret.ptr 1⟩) :=
  ⟨by decide, by decide, by decide, by decide,
    b64tobin_ignores_low_bits (codes "TWFu") 84 81 82 69 70 (by decide) (by decide) (by decide)
      (by decide) (by decide) (by decide) (by decide) (by decide) (by decide)⟩

/-! ## Concatenation of encodings -/

theorem encChars_append (A B : List Nat) : A.length % 3 = 0 →
    encChars (A ++ B) = encChars A ++ encChars B := by
  induction A using list_ind3 with
  | h0 => intro _; simp [encChars]
  | h1 a => intro h; simp at h
  | h2 a b => intro h; simp at h
  | h3 a b c rest ih =>
    intro h
    have h' : rest.length % 3 = 0 := by simp only [List.length_cons] at h; omega
    have e : a :: b :: c :: rest ++ B = a :: b :: c :: (rest ++ B) := rfl
    rw [e, encChars, encChars, ih h']
    rfl

/-- Claim C19.  Encoder concatenation: when the length of `A` is a multiple of
3, the text stored for `A ++ B` is the text stored for `A` followed by the text
stored for `B`; running `bintob64` on `B` at the position returned for `A`
gives the memory and the pointer of `bintob64` on `A ++ B`. -/
theorem bintob64_append (A B : List Nat) (hA : A.length % 3 = 0) :
    (bintob64 (A ++ B)).mem =
        (bintob64 A).mem.take (bintob64 A).dest ++ (bintob64 B).mem ∧
      (bintob64 (A ++ B)).dest = (bintob64 A).dest + (bintob64 B).dest ∧
      bintob64Loop B ⟨(bintob64 A).mem.take (bintob64 A).dest, (bintob64 A).dest⟩ =
        bintob64 (A ++ B) := by
  rw [bintob64_eq, bintob64_eq, bintob64_eq, bintob64Loop_eq, encChars_append A B hA]
  simp

theorem bintob64_append_witness :
    [0x4D, 0x61, 0x6E].length % 3 = 0 ∧
      ((bintob64 ([0x4D, 0x61, 0x6E] ++ [0x4D, 0x61])).mem =
          (bintob64 [0x4D, 0x61, 0x6E]).mem.take (bintob64 [0x4D, 0x61, 0x6E]).dest ++
            (bintob64 [0x4D, 0x61]).mem ∧
        (bintob64 ([0x4D, 0x61, 0x6E] ++ [0x4D, 0x61])).dest =
          (bintob64 [0x4D, 0x61, 0x6E]).dest + (bintob64 [0x4D, 0x61]).dest ∧
        bintob64Loop [0x4D, 0x61]
            ⟨(bintob64 [0x4D, 0x61, 0x6E]).mem.take (bintob64 [0x4D, 0x61, 0x6E]).dest,
              (bintob64 [0x4D, 0x61, 0x6E]).dest⟩ =
          bintob64 ([0x4D, 0x61, 0x6E] ++ [0x4D, 0x61])) :=
  ⟨by decide, bintob64_append [0x4D, 0x61, 0x6E] [0x4D, 0x61] (by decide)⟩

/-! ## Encoding what the decoder stored -/

theorem bintodigit_digit {c : Nat} (h : c ∈ alphabet) : bintodigit.getD (digit c) 0 = c := by
  have h1 := alphabet_spec c h
  simp only [digit, Nat.mod_eq_of_lt h1.1]
  exact h1.2.2.2.2

/-- Three bytes stored for a group of digits encode to that group. -/
theorem encChars_decGroup (a b c d : Nat) (X : List Nat) (ha : a ∈ alphabet)
    (hb : b ∈ alphabet) (hc : c ∈ alphabet) (hd : d ∈ alphabet) :
    encChars (decGroups [a, b, c, d] ++ X) = a :: b :: c :: d :: encChars X := by
  have ha' := digit_of_mem ha
  have hb' := digit_of_mem hb
  have hc' := digit_of_mem hc
  have hd' := digit_of_mem hd
  simp only [decGroups, List.cons_append, List.nil_append, encChars]
  rw [byte1_eq _ _ hb', byte2_eq _ _ hc', byte3_eq _ _ hd']
  have e0 : get0Index ((digit a * 4 + digit b / 16) % 256 % 256) = digit a := by
    rw [get0Index_eq]; omega
  have e1 : get1Index ((digit a * 4 + digit b / 16) % 256 % 256)
      ((digit b * 16 + digit c / 4) % 256 % 256) = digit b := by
    rw [get1Index_eq _ _ (Nat.mod_lt _ (by norm_num))]; omega
  have e2 : get2Index ((digit b * 16 + digit c / 4) % 256 % 256)
      ((digit c * 64 + digit d) % 256 % 256) = digit c := by
    rw [get2Index_eq _ _ (Nat.mod_lt _ (by norm_num))]; omega
  have e3 : get3Index ((digit c * 64 + digit d) % 256 % 256) = digit d := by
    rw [get3Index_eq]; omega
  simp only [get0, get1, get2, get3, e0, e1, e2, e3, bintodigit_digit ha, bintodigit_digit hb,
    bintodigit_digit hc, bintodigit_digit hd]
  rfl

theorem encChars_decGroups (body : List Nat) : (∀ c ∈ body, c ∈ alphabet) →
    body.length % 4 = 0 → encChars (decGroups body) = body := by
  induction body using list_ind4 with
  | h0 => intro _ _; rfl
  | h1 a => intro _ h; simp at h
  | h2 a b => intro _ h; simp at h
  | h3 a b c => intro _ h; simp at h
  | h4 a b c d rest ih =>
    intro hm hl
    have hl' : rest.length % 4 = 0 := by simp only [List.length_cons] at hl; omega
    have hm' : ∀ x ∈ rest, x ∈ alphabet := fun x hx => hm x (by simp [hx])
    rw [decGroups_cons4, encChars_decGroup a b c d _ (hm a (by simp)) (hm b (by simp))
      (hm c (by simp)) (hm d (by simp)), ih hm' hl']

/-- The byte stored for `xy==` encodes to `xy==` when `y` has no low bits. -/
theorem encChars_tail1 (x y : Nat) (hx : x ∈ alphabet) (hy : y ∈ alphabet)
    (h : digit y % 16 = 0) :
    encChars [((digit x <<< 2) ||| (digit y >>> 4)) % 256] = [x, y, padChar, padChar] := by
  have hx' := digit_of_mem hx
  have hy' := digit_of_mem hy
  simp only [encChars]
  rw [byte1_eq _ _ hy']
  have e0 : get0Index ((digit x * 4 + digit y / 16) % 256 % 256) = digit x := by
    rw [get0Index_eq]; omega
  have e1 : get1Index ((digit x * 4 + digit y / 16) % 256 % 256) 0 = digit y := by
    rw [get1Index_eq _ _ (by norm_num)]; omega
  simp only [get0, get1, e0, e1, bintodigit_digit hx, bintodigit_digit hy]

/-- The bytes stored for `xyz=` encode to `xyz=` when `z` has no low bits. -/
theorem encChars_tail2 (x y z : Nat) (hx : x ∈ alphabet) (hy : y ∈ alphabet)
    (hz : z ∈ alphabet) (h : digit z % 4 = 0) :
    encChars [((digit x <<< 2) ||| (digit y >>> 4)) % 256,
      ((digit y <<< 4) ||| (digit z >>> 2)) % 256] = [x, y, z, padChar] := by
  have hx' := digit_of_mem hx
  have hy' := digit_of_mem hy
  have hz' := digit_of_mem hz
  simp only [encChars]
  rw [byte1_eq _ _ hy', byte2_eq _ _ hz']
  have e0 : get0Index ((digit x * 4 + digit y / 16) % 256 % 256) = digit x := by
    rw [get0Index_eq]; omega
  have e1 : get1Index ((digit x * 4 + digit y / 16) % 256 % 256)
      ((digit y * 16 + digit z / 4) % 256 % 256) = digit y := by
    rw [get1Index_eq _ _ (Nat.mod_lt _ (by norm_num))]; omega
  have e2 : get2Index ((digit y * 16 + digit z / 4) % 256 % 256) 0 = digit z := by
    rw [get2Index_eq _ _ (by norm_num)]; omega
  simp only [get0, get1, get2, e0, e1, e2, bintodigit_digit hx, bintodigit_digit hy,
    bintodigit_digit hz]

theorem decGroups_length_mod (body : List Nat) : (decGroups body).length % 3 = 0 := by
  rw [decGroups_length]; omega

/-- Claim C17.  Reverse round trip on canonical text: for a text of complete
groups of four digits, optionally closed by `xy==` where the index of `y` has
its low 4 bits zero or by `xyz=` where the index of `z` has its low 2 bits
zero, `b64tobin` succeeds with some bytes `B`, and `bintob64` on `B` stores
that text again. -/
theorem roundtrip_bintob64_b64tobin (body tail : List Nat)
    (hbody : ∀ c ∈ body, c ∈ alphabet) (hlen : body.length % 4 = 0)
    (htail : tail = [] ∨
      (∃ x y, tail = [x, y, padChar, padChar] ∧ x ∈ alphabet ∧ y ∈ alphabet ∧
        alphabet.indexOf y &&& 15 = 0) ∨
      (∃ x y z, tail = [x, y, z, padChar] ∧ x ∈ alphabet ∧ y ∈ alphabet ∧ z ∈ alphabet ∧
        alphabet.indexOf z &&& 3 = 0)) :
    ∃ B : List Nat, b64tobin (body ++ tail ++ [0]) = ⟨B, Ret.ptr B.length⟩ ∧
      (bintob64 B).mem = body ++ tail ++ [0] ∧ (bintob64 B).dest = (body ++ tail).length := by
  have hd := digits_of_alphabet hbody
  have hp := digit_padChar
  have henc := encChars_decGroups body hbody hlen
  have hmod := decGroups_length_mod body
  rcases htail with rfl | ⟨x, y, rfl, hx, hy, hlow⟩ | ⟨x, y, z, rfl, hx, hy, hz, hlow⟩
  · refine ⟨decGroups body, ?_, ?_, ?_⟩
    · rw [b64tobin, List.append_nil, loop_groups body hd hlen,
        loop_stop 0 [] _ _ (by rw [digit_zero])]
      simp only [List.nil_append, decGroups_length, DecResult.mk.injEq, Ret.ptr.injEq,
        true_and]
      omega
    · rw [bintob64_eq, henc, List.append_nil]
    · rw [bintob64_eq, henc, List.append_nil]
  · rw [indexOf_alphabet hy, and15] at hlow
    refine ⟨decGroups body ++ [((digit x <<< 2) ||| (digit y >>> 4)) % 256], ?_, ?_, ?_⟩
    · rw [b64tobin, List.append_assoc, loop_groups body hd hlen]
      simp only [List.cons_append, List.nil_append]
      rw [loop_pad2 x y padChar padChar _ _ _ (digit_of_mem hx) (digit_of_mem hy) hp hp]
      simp only [List.nil_append, List.length_append, decGroups_length, List.length_singleton,
        DecResult.mk.injEq, Ret.ptr.injEq, true_and]
      omega
    · rw [bintob64_eq, encChars_append _ _ hmod, henc, encChars_tail1 x y hx hy hlow]
    · rw [bintob64_eq, encChars_append _ _ hmod, henc, encChars_tail1 x y hx hy hlow]
  · rw [indexOf_alphabet hz, and3] at hlow
    refine ⟨decGroups body ++ [((digit x <<< 2) ||| (digit y >>> 4)) % 256,
      ((digit y <<< 4) ||| (digit z >>> 2)) % 256], ?_, ?_, ?_⟩
    · rw [b64tobin, List.append_assoc, loop_groups body hd hlen]
      simp only [List.cons_append, List.nil_append]
      rw [loop_pad1 x y z padChar _ _ _ (digit_of_mem hx) (digit_of_mem hy) (digit_of_mem hz)
        hp]
      simp only [List.nil_append, List.length_append, decGroups_length, List.length_cons,
        List.length_nil, DecResult.mk.injEq, Ret.ptr.injEq, true_and]
      omega
    · rw [bintob64_eq, encChars_append _ _ hmod, henc, encChars_tail2 x y z hx hy hz hlow]
    · rw [bintob64_eq, encChars_append _ _ hmod, henc, encChars_tail2 x y z hx hy hz hlow]

theorem roundtrip_bintob64_b64tobin_witness :
    (∀ c ∈ codes "TWFu", c ∈ alphabet) ∧ (codes "TWFu").length % 4 = 0 ∧
      (codes "TWE=" = [] ∨
        (∃ x y, codes "TWE=" = [x, y, padChar, padChar] ∧ x ∈ alphabet ∧ y ∈ alphabet ∧
          alphabet.indexOf y &&& 15 = 0) ∨
        (∃ x y z, codes "TWE=" = [x, y, z, padChar] ∧ x ∈ alphabet ∧ y ∈ alphabet ∧
          z ∈ alphabet ∧ alphabet.indexOf z &&& 3 = 0)) ∧
      ∃ B : List Nat, b64tobin (codes "TWFu" ++ codes "TWE=" ++ [0]) = ⟨B, Ret.ptr B.length⟩ ∧
        (bintob64 B).mem = codes "TWFu" ++ codes "TWE=" ++ [0] ∧
        (bintob64 B).dest = (codes "TWFu" ++ codes "TWE=").length :=
  ⟨by decide, by decide,
    Or.inr (Or.inr ⟨84, 87, 69, by decide, by decide, by decide, by decide, by decide⟩),
    roundtrip_bintob64_b64tobin (codes "TWFu") (codes "TWE=") (by decide) (by decide)
      (Or.inr (Or.inr ⟨84, 87, 69, by decide, by decide, by decide, by decide, by decide⟩))⟩

/-! ## The decoder on a null-terminated string of any content -/

/-- The six ways one pass of the loop over four characters can go. -/
theorem loop_four (a b c d : Nat) (t : List Nat) (p : Nat) (out : List Nat) :
    (64 ≤ digit a ∧ b64tobinLoop (a :: b :: c :: d :: t) p out = ⟨out, Ret.ptr p⟩) ∨
    (digit a < 64 ∧ 64 ≤ digit b ∧
      b64tobinLoop (a :: b :: c :: d :: t) p out = ⟨out, Ret.null⟩) ∨
    (digit a < 64 ∧ digit b < 64 ∧
      (digit c = 64 ∨ digit d = 64 ∨ (digit c = 65 ∧ digit d < 64)) ∧
      b64tobinLoop (a :: b :: c :: d :: t) p out =
        ⟨out ++ [((digit a <<< 2) ||| (digit b >>> 4)) % 256], Ret.null⟩) ∨
    (digit a < 64 ∧ digit b < 64 ∧ digit c = 65 ∧ digit d = 65 ∧
      b64tobinLoop (a :: b :: c :: d :: t) p out =
        ⟨out ++ [((digit a <<< 2) ||| (digit b >>> 4)) % 256], Ret.ptr (p + 1)⟩) ∨
    (digit a < 64 ∧ digit b < 64 ∧ digit c < 64 ∧ digit d = 65 ∧
      b64tobinLoop (a :: b :: c :: d :: t) p out =
        ⟨out ++ [((digit a <<< 2) ||| (digit b >>> 4)) % 256,
          ((digit b <<< 4) ||| (digit c >>> 2)) % 256], Ret.ptr (p + 2)⟩) ∨
    (digit a < 64 ∧ digit b < 64 ∧ digit c < 64 ∧ digit d < 64 ∧
      b64tobinLoop (a :: b :: c :: d :: t) p out =
        b64tobinLoop t (p + 3) (out ++ decGroups [a, b, c, d])) := by
  have hc := digit_le c
  have hd := digit_le d
  by_cases ha : 64 ≤ digit a
  · exact Or.inl ⟨ha, loop_stop a _ p out ha⟩
  have ha' : digit a < 64 := by omega
  by_cases hb : 64 ≤ digit b
  · exact Or.inr (Or.inl ⟨ha', hb, loop_fail2 a b _ p out ha' hb⟩)
  have hb' : digit b < 64 := by omega
  by_cases hc64 : digit c = 64
  · exact Or.inr (Or.inr (Or.inl ⟨ha', hb', Or.inl hc64, loop_fail3 a b c _ p out ha' hb' hc64⟩))
  by_cases hd64 : digit d = 64
  · exact Or.inr (Or.inr (Or.inl ⟨ha', hb', Or.inr (Or.inl hd64),
      loop_fail4 a b c d _ p out ha' hb' hc64 hd64⟩))
  by_cases hc65 : digit c = 65
  · by_cases hd65 : digit d = 65
    · exact Or.inr (Or.inr (Or.inr (Or.inl ⟨ha', hb', hc65, hd65,
        loop_pad2 a b c d _ p out ha' hb' hc65 hd65⟩)))
    · have hd' : digit d < 64 := by omega
      exact Or.inr (Or.inr (Or.inl ⟨ha', hb', Or.inr (Or.inr ⟨hc65, hd'⟩),
        loop_pad_data a b c d _ p out ha' hb' hc65 hd'⟩))
  have hc' : digit c < 64 := by omega
  by_cases hd65 : digit d = 65
  · exact Or.inr (Or.inr (Or.inr (Or.inr (Or.inl ⟨ha', hb', hc', hd65,
      loop_pad1 a b c d _ p out ha' hb' hc' hd65⟩))))
  · have hd' : digit d < 64 := by omega
    exact Or.inr (Or.inr (Or.inr (Or.inr (Or.inr ⟨ha', hb', hc', hd',
      loop_group a b c d _ p out ha' hb' hc' hd'⟩))))

/-- On memory that holds a null byte behind `cs`, the loop does not read behind
that null byte, does not depend on what lies behind it, keeps what was stored
before, and stores at most three bytes for every four characters begun. -/
theorem loop_terminated (cs : List Nat) : ∀ (junk : List Nat) (p : Nat) (out : List Nat),
    b64tobinLoop (cs ++ 0 :: junk) p out = b64tobinLoop (cs ++ [0]) p out ∧
      (b64tobinLoop (cs ++ [0]) p out).ret ≠ Ret.fault ∧
      out <+: (b64tobinLoop (cs ++ [0]) p out).dest ∧
      (b64tobinLoop (cs ++ [0]) p out).dest.length ≤ out.length + 3 * ((cs.length + 3) / 4) := by
  have hz : digit 0 = 64 := digit_zero
  induction cs using list_ind4 with
  | h0 =>
    intro junk p out
    rw [List.nil_append, List.nil_append, loop_stop 0 _ _ _ (by omega),
      loop_stop 0 _ _ _ (by omega)]
    exact ⟨rfl, nofun, List.prefix_refl _, by dsimp only; omega⟩
  | h1 a =>
    intro junk p out
    simp only [List.cons_append, List.nil_append]
    by_cases ha : 64 ≤ digit a
    · rw [loop_stop a _ _ _ ha, loop_stop a _ _ _ ha]
      exact ⟨rfl, nofun, List.prefix_refl _, by dsimp only; omega⟩
    · rw [loop_fail2 a 0 _ _ _ (by omega) (by omega), loop_fail2 a 0 _ _ _ (by omega) (by omega)]
      exact ⟨rfl, nofun, List.prefix_refl _, by dsimp only; omega⟩
  | h2 a b =>
    intro junk p out
    simp only [List.cons_append, List.nil_append]
    by_cases ha : 64 ≤ digit a
    · rw [loop_stop a _ _ _ ha, loop_stop a _ _ _ ha]
      exact ⟨rfl, nofun, List.prefix_refl _, by dsimp only; omega⟩
    by_cases hb : 64 ≤ digit b
    · rw [loop_fail2 a b _ _ _ (by omega) hb, loop_fail2 a b _ _ _ (by omega) hb]
      exact ⟨rfl, nofun, List.prefix_refl _, by dsimp only; omega⟩
    · rw [loop_fail3 a b 0 _ _ _ (by omega) (by omega) hz,
        loop_fail3 a b 0 _ _ _ (by omega) (by omega) hz]
      exact ⟨rfl, nofun, List.prefix_append _ _, by
        simp only [List.length_append, List.length_cons, List.length_nil]; omega⟩
  | h3 a b c =>
    intro junk p out
    simp only [List.cons_append, List.nil_append]
    by_cases ha : 64 ≤ digit a
    · rw [loop_stop a _ _ _ ha, loop_stop a _ _ _ ha]
      exact ⟨rfl, nofun, List.prefix_refl _, by dsimp only; omega⟩
    by_cases hb : 64 ≤ digit b
    · rw [loop_fail2 a b _ _ _ (by omega) hb, loop_fail2 a b _ _ _ (by omega) hb]
      exact ⟨rfl, nofun, List.prefix_refl _, by dsimp only; omega⟩
    by_cases hc : digit c = 64
    · rw [loop_fail3 a b c _ _ _ (by omega) (by omega) hc,
        loop_fail3 a b c _ _ _ (by omega) (by omega) hc]
      exact ⟨rfl, nofun, List.prefix_append _ _, by
        simp only [List.length_append, List.length_cons, List.length_nil]; omega⟩
    · rw [loop_fail4 a b c 0 _ _ _ (by omega) (by omega) hc hz,
        loop_fail4 a b c 0 _ _ _ (by omega) (by omega) hc hz]
      exact ⟨rfl, nofun, List.prefix_append _ _, by
        simp only [List.length_append, List.length_cons, List.length_nil]; omega⟩
  | h4 a b c d rest ih =>
    intro junk p out
    simp only [List.cons_append]
    rcases loop_four a b c d (rest ++ [0]) p out with ⟨ha, h⟩ | ⟨ha, hb, h⟩ |
      ⟨ha, hb, hcd, h⟩ | ⟨ha, hb, hc, hd, h⟩ | ⟨ha, hb, hc, hd, h⟩ | ⟨ha, hb, hc, hd, h⟩
    · rw [h, loop_stop a _ _ _ ha]
      exact ⟨rfl, nofun, List.prefix_refl _, by dsimp only; omega⟩
    · rw [h, loop_fail2 a b _ _ _ ha hb]
      exact ⟨rfl, nofun, List.prefix_refl _, by dsimp only; omega⟩
    · rw [h]
      refine ⟨?_, nofun, List.prefix_append _ _, by
        simp only [List.length_append, List.length_cons, List.length_nil]; omega⟩
      rcases hcd with hc | hd | ⟨hc, hd⟩
      · exact loop_fail3 a b c _ _ _ ha hb hc
      · by_cases hc : digit c = 64
        · exact loop_fail3 a b c _ _ _ ha hb hc
        · exact loop_fail4 a b c d _ _ _ ha hb hc hd
      · exact loop_pad_data a b c d _ _ _ ha hb hc hd
    · rw [h, loop_pad2 a b c d _ _ _ ha hb hc hd]
      exact ⟨rfl, nofun, List.prefix_append _ _, by
        simp only [List.length_append, List.length_cons, List.length_nil]; omega⟩
    · rw [h, loop_pad1 a b c d _ _ _ ha hb hc hd]
      exact ⟨rfl, nofun, List.prefix_append _ _, by
        simp only [List.length_append, List.length_cons, List.length_nil]; omega⟩
    · rw [h, loop_group a b c d _ _ _ ha hb hc hd]
      obtain ⟨h1, h2, h3, h4⟩ := ih junk (p + 3) (out ++ decGroups [a, b, c, d])
      refine ⟨h1, h2, List.IsPrefix.trans (List.prefix_append _ _) h3, ?_⟩
      simp only [decGroups, List.length_append, List.length_cons, List.length_nil] at h4 ⊢
      omega

/-- Claim C13.  Decoder output bound: on a null-terminated text with `n`
characters before the null byte, whatever lies behind it, `b64tobin` returns,
with success or with null, having stored at most `3 * ceil(n / 4)` bytes,
written `3 * ((n + 3) / 4)`. -/
theorem b64tobin_output_bound (cs junk : List Nat) :
    (b64tobin (cs ++ 0 :: junk)).dest.length ≤ 3 * ((cs.length + 3) / 4) ∧
      (b64tobin (cs ++ 0 :: junk)).ret ≠ Ret.fault := by
  obtain ⟨h1, h2, _, h4⟩ := loop_terminated cs junk 0 []
  rw [b64tobin, h1]
  exact ⟨by simpa using h4, h2⟩

/-- Claim C14.  The decoder does not read behind the null byte: given only the
characters up to and including the first null byte, with any read behind them
reported as `Ret.fault`, `b64tobin` never returns `Ret.fault`; what lies behind
the null byte does not change the outcome; the table maps the null byte to
`notabase64`.  The loop is a total function, so the call terminates. -/
theorem b64tobin_reads_within_string (cs junk : List Nat) :
    (b64tobin (cs ++ [0])).ret ≠ Ret.fault ∧
      b64tobin (cs ++ 0 :: junk) = b64tobin (cs ++ [0]) ∧
      digittobin.getD (0 % 256) 0 = notabase64 := by
  obtain ⟨h1, h2, _, _⟩ := loop_terminated cs junk 0 []
  exact ⟨h2, h1, by decide⟩

/-! ## Acceptance condition -/

theorem mem_alphabet_of_digit {c : Nat} (h : c < 256) (hd : digit c < 64) : c ∈ alphabet := by
  by_contra hn
  have := digit_ge_of_not_mem h hn
  omega

theorem not_mem_alphabet_of_digit {c : Nat} (hd : 64 ≤ digit c) : c ∉ alphabet := by
  intro h
  have := digit_of_mem h
  omega

theorem ne_padChar_of_digit {c : Nat} (hd : digit c ≠ 65) : c ≠ padChar := by
  intro h
  rw [h, digit_padChar] at hd
  exact hd rfl

/-- After the last complete group of digits the loop either returns a position
and the remainder is accepted, or returns null and it is not. -/
theorem loop_remainder (r : List Nat) (p : Nat) (out : List Nat) (hr : ∀ c ∈ r, c < 256)
    (hmax : ¬ ∃ a b c d r', r = a :: b :: c :: d :: r' ∧ a ∈ alphabet ∧ b ∈ alphabet ∧
      c ∈ alphabet ∧ d ∈ alphabet) :
    ((∃ off, (b64tobinLoop (r ++ [0]) p out).ret = Ret.ptr off) ∧ acceptedRemainder r) ∨
      ((b64tobinLoop (r ++ [0]) p out).ret = Ret.null ∧ ¬ acceptedRemainder r) := by
  have hz : digit 0 = 64 := digit_zero
  rcases r with _ | ⟨a, _ | ⟨b, _ | ⟨c, _ | ⟨d, t⟩⟩⟩⟩
  · left
    rw [List.nil_append, loop_stop 0 _ _ _ (by omega)]
    exact ⟨⟨p, rfl⟩, Or.inl rfl⟩
  · have ha := hr a (by simp)
    simp only [List.cons_append, List.nil_append]
    by_cases h : 64 ≤ digit a
    · left
      rw [loop_stop a _ _ _ h]
      exact ⟨⟨p, rfl⟩, Or.inr (Or.inl ⟨a, [], rfl, not_mem_alphabet_of_digit h⟩)⟩
    · right
      rw [loop_fail2 a 0 _ _ _ (by omega) (by omega)]
      refine ⟨rfl, ?_⟩
      rintro (h1 | ⟨c, t, h1, hc⟩ | ⟨a', b', c', t, h1, -⟩)
      · cases h1
      · cases h1
        exact hc (mem_alphabet_of_digit ha (by omega))
      · cases h1
  · have ha := hr a (by simp)
    have hb := hr b (by simp)
    simp only [List.cons_append, List.nil_append]
    by_cases h : 64 ≤ digit a
    · left
      rw [loop_stop a _ _ _ h]
      exact ⟨⟨p, rfl⟩, Or.inr (Or.inl ⟨a, _, rfl, not_mem_alphabet_of_digit h⟩)⟩
    · right
      constructor
      · by_cases h2 : 64 ≤ digit b
        · rw [loop_fail2 a b _ _ _ (by omega) h2]
        · rw [loop_fail3 a b 0 _ _ _ (by omega) (by omega) hz]
      · rintro (h1 | ⟨c, t, h1, hc⟩ | ⟨a', b', c', t, h1, -⟩)
        · cases h1
        · cases h1
          exact hc (mem_alphabet_of_digit ha (by omega))
        · cases h1
  · have ha := hr a (by simp)
    have hb := hr b (by simp)
    simp only [List.cons_append, List.nil_append]
    by_cases h : 64 ≤ digit a
    · left
      rw [loop_stop a _ _ _ h]
      exact ⟨⟨p, rfl⟩, Or.inr (Or.inl ⟨a, _, rfl, not_mem_alphabet_of_digit h⟩)⟩
    · right
      constructor
      · by_cases h2 : 64 ≤ digit b
        · rw [loop_fail2 a b _ _ _ (by omega) h2]
        · by_cases h3 : digit c = 64
          · rw [loop_fail3 a b c _ _ _ (by omega) (by omega) h3]
          · rw [loop_fail4 a b c 0 _ _ _ (by omega) (by omega) h3 hz]
      · rintro (h1 | ⟨c, t, h1, hc⟩ | ⟨a', b', c', t, h1, -⟩)
        · cases h1
        · cases h1
          exact hc (mem_alphabet_of_digit ha (by omega))
        · cases h1
  · have ha := hr a (by simp)
    have hb := hr b (by simp)
    have hc := hr c (by simp)
    have hd := hr d (by simp)
    simp only [List.cons_append]
    rcases loop_four a b c d (t ++ [0]) p out with ⟨h0, h⟩ | ⟨h0, h1, h⟩ |
      ⟨h0, h1, hcd, h⟩ | ⟨h0, h1, h2, h3, h⟩ | ⟨h0, h1, h2, h3, h⟩ | ⟨h0, h1, h2, h3, h⟩
    · left
      rw [h]
      exact ⟨⟨p, rfl⟩, Or.inr (Or.inl ⟨a, _, rfl, not_mem_alphabet_of_digit h0⟩)⟩
    · right
      rw [h]
      refine ⟨rfl, ?_⟩
      rintro (e | ⟨c', t', e, hc'⟩ | ⟨a', b', c', t', e, -, hb', -⟩)
      · cases e
      · cases e
        exact hc' (mem_alphabet_of_digit ha h0)
      · cases e
        exact not_mem_alphabet_of_digit h1 hb'
    · right
      rw [h]
      refine ⟨rfl, ?_⟩
      rintro (e | ⟨c', t', e, hc'⟩ | ⟨a', b', c', t', e, -, -, hc'⟩)
      · cases e
      · cases e
        exact hc' (mem_alphabet_of_digit ha h0)
      · cases e
        rcases hcd with h64 | h64 | ⟨h65, hlt⟩
        · rcases hc' with hc' | hc'
          · exact not_mem_alphabet_of_digit (by omega) hc'
          · exact ne_padChar_of_digit (by omega) hc'
        · rw [digit_padChar] at h64
          omega
        · rw [digit_padChar] at hlt
          omega
    · left
      rw [h]
      have ec := digit_eq_65 hc h2
      have ed := digit_eq_65 hd h3
      subst ec ed
      exact ⟨⟨p + 1, rfl⟩, Or.inr (Or.inr ⟨a, b, padChar, t, rfl, mem_alphabet_of_digit ha h0,
        mem_alphabet_of_digit hb h1, Or.inr rfl⟩)⟩
    · left
      rw [h]
      have ed := digit_eq_65 hd h3
      subst ed
      exact ⟨⟨p + 2, rfl⟩, Or.inr (Or.inr ⟨a, b, c, t, rfl, mem_alphabet_of_digit ha h0,
        mem_alphabet_of_digit hb h1, Or.inl (mem_alphabet_of_digit hc h2)⟩)⟩
    · exact absurd ⟨a, b, c, d, t, rfl, mem_alphabet_of_digit ha h0, mem_alphabet_of_digit hb h1,
        mem_alphabet_of_digit hc h2, mem_alphabet_of_digit hd h3⟩ hmax

/-- Claim C15.  Exact acceptance condition: with `pre` the `m` complete groups
of digits in front (`m` largest) and `r` the rest of the text before the null
byte, `b64tobin` returns a position if and only if `r` is empty, or starts with
a character that is no digit, or starts with two digits, a digit or `=`, and
`=`; otherwise it returns null.  What follows the character that stopped the
decoding, or the closing `=` of the last group, does not change the outcome. -/
theorem b64tobin_acceptance (m : Nat) (pre r : List Nat) (hpre : ∀ c ∈ pre, c ∈ alphabet)
    (hlen : pre.length = 4 * m) (hr : ∀ c ∈ r, c < 256)
    (hmax : ¬ ∃ a b c d r', r = a :: b :: c :: d :: r' ∧ a ∈ alphabet ∧ b ∈ alphabet ∧
      c ∈ alphabet ∧ d ∈ alphabet) :
    ((∃ off, (b64tobin (pre ++ r ++ [0])).ret = Ret.ptr off) ↔ acceptedRemainder r) ∧
      ((b64tobin (pre ++ r ++ [0])).ret = Ret.null ↔ ¬ acceptedRemainder r) ∧
      (∀ c t t', c < 256 → c ∉ alphabet →
        b64tobin (pre ++ c :: t) = b64tobin (pre ++ c :: t')) ∧
      (∀ a b c t t', a ∈ alphabet → b ∈ alphabet → (c ∈ alphabet ∨ c = padChar) →
        b64tobin (pre ++ a :: b :: c :: padChar :: t) =
          b64tobin (pre ++ a :: b :: c :: padChar :: t')) := by
  have hd := digits_of_alphabet hpre
  have hm : pre.length % 4 = 0 := by omega
  have hp := digit_padChar
  refine ⟨?_, ?_, ?_, ?_⟩
  · rw [b64tobin, List.append_assoc, loop_groups pre hd hm]
    rcases loop_remainder r (0 + 3 * (pre.length / 4)) ([] ++ decGroups pre) hr hmax with
      ⟨h1, h2⟩ | ⟨h1, h2⟩
    · exact ⟨fun _ => h2, fun _ => h1⟩
    · rw [h1]
      exact ⟨fun ⟨off, h⟩ => (by cases h), fun h => absurd h h2⟩
  · rw [b64tobin, List.append_assoc, loop_groups pre hd hm]
    rcases loop_remainder r (0 + 3 * (pre.length / 4)) ([] ++ decGroups pre) hr hmax with
      ⟨⟨off, h1⟩, h2⟩ | ⟨h1, h2⟩
    · rw [h1]
      exact ⟨fun h => (by cases h), fun h => absurd h2 h⟩
    · exact ⟨fun _ => h2, fun _ => h1⟩
  · intro c t t' hc hnc
    have hdc := digit_ge_of_not_mem hc hnc
    rw [b64tobin, b64tobin, loop_groups pre hd hm, loop_groups pre hd hm, loop_stop c _ _ _ hdc,
      loop_stop c _ _ _ hdc]
  · intro a b c t t' ha hb hc
    have hda := digit_of_mem ha
    have hdb := digit_of_mem hb
    rw [b64tobin, b64tobin, loop_groups pre hd hm, loop_groups pre hd hm]
    rcases hc with hc | hc
    · have hdc := digit_of_mem hc
      rw [loop_pad1 a b c padChar _ _ _ hda hdb hdc hp,
        loop_pad1 a b c padChar _ _ _ hda hdb hdc hp]
    · subst hc
      rw [loop_pad2 a b padChar padChar _ _ _ hda hdb hp hp,
        loop_pad2 a b padChar padChar _ _ _ hda hdb hp hp]

theorem b64tobin_acceptance_witness :
    (∀ c ∈ codes "TWFu", c ∈ alphabet) ∧ (codes "TWFu").length = 4 * 1 ∧
      (∀ c ∈ [84, 81, padChar, padChar, 33], c < 256) ∧
      (¬ ∃ a b c d r', [84, 81, padChar, padChar, 33] = a :: b :: c :: d :: r' ∧
        a ∈ alphabet ∧ b ∈ alphabet ∧ c ∈ alphabet ∧ d ∈ alphabet) ∧
      (((∃ off, (b64tobin (codes "TWFu" ++ [84, 81, padChar, padChar, 33] ++ [0])).ret =
            Ret.ptr off) ↔ acceptedRemainder [84, 81, padChar, padChar, 33]) ∧
        ((b64tobin (codes "TWFu" ++ [84, 81, padChar, padChar, 33] ++ [0])).ret = Ret.null ↔
          ¬ acceptedRemainder [84, 81, padChar, padChar, 33]) ∧
        (∀ c t t', c < 256 → c ∉ alphabet →
          b64tobin (codes "TWFu" ++ c :: t) = b64tobin (codes "TWFu" ++ c :: t')) ∧
        (∀ a b c t t', a ∈ alphabet → b ∈ alphabet → (c ∈ alphabet ∨ c = padChar) →
          b64tobin (codes "TWFu" ++ a :: b :: c :: padChar :: t) =
            b64tobin (codes "TWFu" ++ a :: b :: c :: padChar :: t'))) :=
  ⟨by decide, by decide, by decide,
    fun ⟨_, _, _, _, _, e, _, _, _, h⟩ => (by cases e; exact absurd h (by decide)),
    b64tobin_acceptance 1 (codes "TWFu") [84, 81, padChar, padChar, 33] (by decide) (by decide)
      (by decide)
      (fun ⟨_, _, _, _, _, e, _, _, _, h⟩ => by cases e; exact absurd h (by decide))⟩

/-! ## What is stored before a failure -/

/-- When the call fails, nothing was stored exactly when the failure is at the
second character of the first group. -/
theorem fail_untouched (cs : List Nat) (hcs : ∀ c ∈ cs, c < 256)
    (hfail : (b64tobin (cs ++ [0])).ret = Ret.null) :
    (b64tobin (cs ++ [0])).dest = [] ↔
      ∃ a e t, cs ++ [0] = a :: e :: t ∧ a ∈ alphabet ∧ e ∉ alphabet := by
  have hz : digit 0 = 64 := digit_zero
  have h0 : (0 : Nat) ∉ alphabet := by decide
  rw [b64tobin] at hfail ⊢
  rcases cs with _ | ⟨a, _ | ⟨b, _ | ⟨c, _ | ⟨d, t⟩⟩⟩⟩
  · rw [List.nil_append, loop_stop 0 _ _ _ (by omega)] at hfail
    cases hfail
  · have ha := hcs a (by simp)
    simp only [List.cons_append, List.nil_append] at hfail ⊢
    by_cases h : 64 ≤ digit a
    · rw [loop_stop a _ _ _ h] at hfail
      cases hfail
    · rw [loop_fail2 a 0 _ _ _ (by omega) (by omega)]
      exact ⟨fun _ => ⟨a, 0, [], rfl, mem_alphabet_of_digit ha (by omega), h0⟩, fun _ => rfl⟩
  · have ha := hcs a (by simp)
    have hb := hcs b (by simp)
    simp only [List.cons_append, List.nil_append] at hfail ⊢
    by_cases h : 64 ≤ digit a
    · rw [loop_stop a _ _ _ h] at hfail
      cases hfail
    by_cases h2 : 64 ≤ digit b
    · rw [loop_fail2 a b _ _ _ (by omega) h2]
      exact ⟨fun _ => ⟨a, b, _, rfl, mem_alphabet_of_digit ha (by omega),
        not_mem_alphabet_of_digit h2⟩, fun _ => rfl⟩
    · rw [loop_fail3 a b 0 _ _ _ (by omega) (by omega) hz]
      constructor
      · intro e
        simp at e
      · rintro ⟨a', e', t', e, -, he'⟩
        cases e
        exact absurd (mem_alphabet_of_digit hb (by omega)) he'
  · have ha := hcs a (by simp)
    have hb := hcs b (by simp)
    simp only [List.cons_append, List.nil_append] at hfail ⊢
    by_cases h : 64 ≤ digit a
    · rw [loop_stop a _ _ _ h] at hfail
      cases hfail
    by_cases h2 : 64 ≤ digit b
    · rw [loop_fail2 a b _ _ _ (by omega) h2]
      exact ⟨fun _ => ⟨a, b, _, rfl, mem_alphabet_of_digit ha (by omega),
        not_mem_alphabet_of_digit h2⟩, fun _ => rfl⟩
    · have hne : (b64tobinLoop [a, b, c, 0] 0 []).dest ≠ [] := by
        by_cases h3 : digit c = 64
        · rw [loop_fail3 a b c _ _ _ (by omega) (by omega) h3]; simp
        · rw [loop_fail4 a b c 0 _ _ _ (by omega) (by omega) h3 hz]; simp
      constructor
      · intro e
        exact absurd e hne
      · rintro ⟨a', e', t', e, -, he'⟩
        cases e
        exact absurd (mem_alphabet_of_digit hb (by omega)) he'
  · have ha := hcs a (by simp)
    have hb := hcs b (by simp)
    simp only [List.cons_append] at hfail ⊢
    rcases loop_four a b c d (t ++ [0]) 0 [] with ⟨g0, h⟩ | ⟨g0, g1, h⟩ |
      ⟨g0, g1, gcd, h⟩ | ⟨g0, g1, g2, g3, h⟩ | ⟨g0, g1, g2, g3, h⟩ | ⟨g0, g1, g2, g3, h⟩
    · rw [h] at hfail
      cases hfail
    · rw [h]
      exact ⟨fun _ => ⟨a, b, _, rfl, mem_alphabet_of_digit ha g0,
        not_mem_alphabet_of_digit g1⟩, fun _ => rfl⟩
    · rw [h]
      constructor
      · intro e
        simp at e
      · rintro ⟨a', e', t', e, -, he'⟩
        cases e
        exact absurd (mem_alphabet_of_digit hb g1) he'
    · rw [h] at hfail
      cases hfail
    · rw [h] at hfail
      cases hfail
    · rw [h]
      obtain ⟨_, _, hpre, _⟩ := loop_terminated t [] (0 + 3) ([] ++ decGroups [a, b, c, d])
      constructor
      · intro e
        rw [e] at hpre
        simp [decGroups] at hpre
      · rintro ⟨a', e', t', e, -, he'⟩
        cases e
        exact absurd (mem_alphabet_of_digit hb g1) he'

/-- Claim C20.  Decoder failure is not atomic: when `b64tobin` returns null on
a text that starts with two digits, at least one byte has been stored; nothing
has been stored exactly when the first character is a digit and the second is
not (failure at the second character of the first group).  `TWE` stores `0x4D`
and then returns null. -/
theorem b64tobin_failure_not_atomic (cs : List Nat) (hcs : ∀ c ∈ cs, c < 256)
    (hfail : (b64tobin (cs ++ [0])).ret = Ret.null) :
    (∀ a b t, cs = a :: b :: t → a ∈ alphabet → b ∈ alphabet →
        1 ≤ (b64tobin (cs ++ [0])).dest.length) ∧
      ((b64tobin (cs ++ [0])).dest = [] ↔
        ∃ a e t, cs ++ [0] = a :: e :: t ∧ a ∈ alphabet ∧ e ∉ alphabet) ∧
      b64tobin (codes "TWE" ++ [0]) = ⟨[0x4D], Ret.null⟩ := by
  have hiff := fail_untouched cs hcs hfail
  refine ⟨?_, hiff, by decide⟩
  intro a b t e _ hb
  have hne : (b64tobin (cs ++ [0])).dest ≠ [] := by
    intro h
    obtain ⟨a', e', t', e2, -, he'⟩ := hiff.mp h
    rw [e] at e2
    cases e2
    exact he' hb
  exact Nat.one_le_iff_ne_zero.mpr (fun h => hne (List.length_eq_zero.mp h))

theorem b64tobin_failure_not_atomic_witness :
    (∀ c ∈ codes "TWE", c < 256) ∧ (b64tobin (codes "TWE" ++ [0])).ret = Ret.null ∧
      ((∀ a b t, codes "TWE" = a :: b :: t → a ∈ alphabet → b ∈ alphabet →
          1 ≤ (b64tobin (codes "TWE" ++ [0])).dest.length) ∧
        ((b64tobin (codes "TWE" ++ [0])).dest = [] ↔
          ∃ a e t, codes "TWE" ++ [0] = a :: e :: t ∧ a ∈ alphabet ∧ e ∉ alphabet) ∧
        b64tobin (codes "TWE" ++ [0]) = ⟨[0x4D], Ret.null⟩) :=
  ⟨by decide, by decide, b64tobin_failure_not_atomic (codes "TWE") (by decide) (by decide)⟩

end Base64
